import Mathlib

/-
  Verification of `data_preparation.py` (speechbrain data-preparation
  pipeline): a shallow embedding of the fingerprint-gated skip logic,
  file discovery, dataset stager, and the TIMIT / LibriSpeech manifest
  builders, together with theorems settling the specification claims.

  Path strings are modelled as lists of characters (`Str`), the
  filesystem as an explicit record of directories and typed files, and
  each stateful run as a function producing the updated filesystem plus
  an ordered trace of observable events (directory creation, text-file
  writes, pickle writes, shell invocations, log messages).
-/

set_option autoImplicit false

/-- Path and text strings are modelled as lists of characters. -/
abbrev Str := List Char

/-- Coercion helper from Lean string literals to the `Str` model. -/
def chars (s : String) : Str := s.data

/-- Decides whether `t` is a leading block of `s` (character-wise). -/
def leadsWith : Str → Str → Bool
  | [], _ => true
  | _ :: _, [] => false
  | a :: as, b :: bs => a == b && leadsWith as bs

/-- Substring containment: `occursIn t s` holds when `t` appears as a
contiguous block of `s` (Python `t in s`). -/
def occursIn (t : Str) : Str → Bool
  | [] => leadsWith t []
  | c :: s => leadsWith t (c :: s) || occursIn t s

/-- Python `s.split(sep)` for a one-character separator: keeps empty
pieces, and the split of the empty string is `[""]`. -/
def pySplitC (sep : Char) : Str → List Str
  | [] => [[]]
  | c :: rest =>
    if c == sep then [] :: pySplitC sep rest
    else
      match pySplitC sep rest with
      | [] => [[c]]
      | p :: ps => (c :: p) :: ps

/-- Whitespace test used by Python `str.strip()`. -/
def isWs (c : Char) : Bool :=
  c == ' ' || c == '\n' || c == '\t' || c == '\r'

/-- Python `s.strip()`: removes leading and trailing whitespace. -/
def pyStrip (s : Str) : Str :=
  ((s.dropWhile isWs).reverse.dropWhile isWs).reverse

/-- Python `s.rstrip("\n")`: removes trailing newline characters only. -/
def rstripNl (s : Str) : Str :=
  (s.reverse.dropWhile (fun c => c == '\n')).reverse

/-- Fuelled worker for `replaceAll`; the fuel is an upper bound on the
number of characters still to scan, so the recursion is structural. -/
def replaceAllF : Nat → Str → Str → Str → Str
  | 0, s, _, _ => s
  | _ + 1, [], _, _ => []
  | fuel + 1, c :: rest, old, new =>
    if leadsWith old (c :: rest) then
      new ++ replaceAllF fuel (List.drop old.length (c :: rest)) old new
    else
      c :: replaceAllF fuel rest old new

/-- Python `s.replace(old, new)`: replaces every non-overlapping
occurrence of `old`, scanning left to right. -/
def replaceAll (s old new : Str) : Str :=
  replaceAllF (s.length + 1) s old new

/-- Python `sep.join(pieces)` for a string separator. -/
def joinSep (sep : Str) : List Str → Str
  | [] => []
  | [p] => p
  | p :: q :: rest => p ++ sep ++ joinSep sep (q :: rest)

/-- Shell word splitting of a command string: blank-separated tokens,
empty tokens dropped (how `sh` tokenises a simple command). -/
def shellSplit (s : Str) : List Str :=
  (pySplitC ' ' s).filter (fun t => !t.isEmpty)

/-- Python `os.path.basename`: the part after the last slash. -/
def pyBasename (p : Str) : Str :=
  (p.reverse.takeWhile (fun c => c != '/')).reverse

/-- Python `os.path.dirname`: everything before the last slash; keeps a
run of leading slashes intact, otherwise strips trailing slashes. -/
def pyDirname (p : Str) : Str :=
  let tailLen := (p.reverse.takeWhile (fun c => c != '/')).length
  let head := p.take (p.length - tailLen)
  if head.isEmpty then head
  else if head.all (fun c => c == '/') then head
  else (head.reverse.dropWhile (fun c => c == '/')).reverse

/-- One decimal digit character. -/
def digitChar (n : Nat) : Char :=
  match n % 10 with
  | 0 => '0' | 1 => '1' | 2 => '2' | 3 => '3' | 4 => '4'
  | 5 => '5' | 6 => '6' | 7 => '7' | 8 => '8' | _ => '9'

/-- Fuelled decimal rendering of a natural number (no sign, no spaces). -/
def natDigsF : Nat → Nat → Str
  | 0, _ => []
  | fuel + 1, n => if n == 0 then [] else natDigsF fuel (n / 10) ++ [digitChar n]

/-- Decimal rendering of a natural number. -/
def natToStr (n : Nat) : Str :=
  if n == 0 then chars "0" else natDigsF (n + 1) n

/-- Rendering of `str(duration)` where `duration = samples / 16000`.
The Python value is a float; its decimal text is modelled as a fixed
deterministic encoding of the exact rational `samples/16000` (the claims
proved here depend only on the rendering being deterministic and free of
spaces, not on the exact float formatting). -/
def durStr (samples : Nat) : Str :=
  natToStr samples ++ '/' :: natToStr 16000

/-- Resolved configuration of `timit_prepare` (the value `check_opts`
returns and `save_pkl` persists as the fingerprint). `check_opts` lives
in `utils`, outside the staged sources; per the spec the resolved
configuration is an immutable record of the declared options, compared
by structural value equality. Optional directory options resolve to
`none` when left at their `'None'` default. -/
structure TimitConf where
  data_folder : Str
  splits : List Str
  kaldi_ali_tr : Option Str
  kaldi_ali_dev : Option Str
  kaldi_ali_test : Option Str
  kaldi_lab_opts : Option Str
  save_folder : Str
  deriving DecidableEq, Repr

/-- Resolved configuration of `librispeech_prepare` (see `TimitConf`). -/
structure LibriConf where
  data_folder : Str
  splits : List Str
  save_folder : Str
  select_n_sentences : Option (List Nat)
  deriving DecidableEq, Repr

/-- Resolved configuration of `copy_data_locally`. -/
structure CopyConf where
  data_file : List Str
  local_folder : Str
  copy_cmd : Str
  copy_opts : Str
  uncompress_cmd : Str
  uncompress_opts : Str
  deriving DecidableEq, Repr

/-- A value persisted through `save_pkl` / `load_pkl`: a resolved
configuration fingerprint or an opaque per-utterance label blob. -/
inductive PklVal where
  | tconf (c : TimitConf)
  | lconf (c : LibriConf)
  | blob (b : Nat)
  deriving DecidableEq, Repr

/-- Content of a regular file in the modelled filesystem: a wav/flac
audio file (only its sample count is ever read), a line-oriented text
file (lines stored without their trailing newline), a pickle, a kaldi
alignment store (an external id-to-blob mapping, exposed through
`read_kaldi_lab`), or raw bytes no reader of this module understands. -/
inductive FContent where
  | wav (nsamples : Nat)
  | text (lines : List Str)
  | pkl (v : PklVal)
  | lab (entries : List (Str × Nat))
  | raw (b : Nat)
  deriving DecidableEq, Repr

/-- The filesystem state: the set of directories and the regular files
with their content, in a fixed deterministic enumeration order (the
traversal order of discovery). -/
structure FS where
  dirs : List Str
  files : List (Str × FContent)
  deriving DecidableEq, Repr

/-- Python `os.path.isfile`. -/
def isFileF (fs : FS) (p : Str) : Bool :=
  fs.files.any (fun e => e.1 == p)

/-- Python `os.path.exists` (a directory or a regular file). -/
def existsF (fs : FS) (p : Str) : Bool :=
  fs.dirs.any (fun d => d == p) || isFileF fs p

/-- Content of the file at `p`, if any (first entry wins; paths are kept
unique by `setFile`). -/
def fileAt (fs : FS) (p : Str) : Option FContent :=
  (fs.files.find? (fun e => e.1 == p)).map Prod.snd

/-- Writing a file into the entry list: overwrites the entry at `p`
when present, otherwise appends a new entry at the end of the
enumeration order. -/
def setEntries : List (Str × FContent) → Str → FContent → List (Str × FContent)
  | [], p, c => [(p, c)]
  | e :: rest, p, c =>
    if e.1 == p then (p, c) :: rest else e :: setEntries rest p c

/-- Writing a file: overwrites the entry at `p` when present, otherwise
appends a new entry at the end of the enumeration order. -/
def setFile (fs : FS) (p : Str) (c : FContent) : FS :=
  { fs with files := setEntries fs.files p c }

/-- Effect of `os.makedirs`. -/
def mkdirF (fs : FS) (p : Str) : FS :=
  { fs with dirs := fs.dirs ++ [p] }

/-- Modelled from the spec: `data_io.load_pkl` is not among the staged
sources; per the spec a fingerprint file that is absent, corrupt or
unreadable is treated as carrying no usable prior value (`none`), and
anything loaded is compared by value. -/
def load_pkl (fs : FS) (p : Str) : Option PklVal :=
  match fileAt fs p with
  | some (FContent.pkl v) => some v
  | _ => none

/-- Modelled from the spec: `data_io.read_wav_soundfile` is not among
the staged sources; it returns the sample array of an audio file, and
fails (raises) on anything unreadable. Only `len(signal)` is used. -/
def read_wav_soundfile (fs : FS) (p : Str) : Option Nat :=
  match fileAt fs p with
  | some (FContent.wav n) => some n
  | _ => none

/-- Reading a line-oriented text file with `open(...)`; `none` models
the raised exception when the file is missing or unreadable. -/
def readTextF (fs : FS) (p : Str) : Option (List Str) :=
  match fileAt fs p with
  | some (FContent.text ls) => some ls
  | _ => none

/-- Modelled from the spec: `data_io.read_kaldi_lab` is not among the
staged sources; it loads the external label store found at the kaldi
alignment directory, an id-to-blob mapping. -/
def read_kaldi_lab (fs : FS) (dir : Str) : List (Str × Nat) :=
  match fileAt fs dir with
  | some (FContent.lab entries) => entries
  | _ => []

/-- Lookup of an utterance id in the label store (`snt_id in lab.keys()`). -/
def labHas (lab : List (Str × Nat)) (id : Str) : Bool :=
  lab.any (fun e => e.1 == id)

/-- Lookup of the blob of an utterance id (`lab[snt_id]`). -/
def labGet (lab : List (Str × Nat)) (id : Str) : Option Nat :=
  (lab.find? (fun e => e.1 == id)).map Prod.snd

/-- Log messages, kept structural: the claims only ever ask which
message was emitted, not its exact text. -/
inductive LogEv where
  | creatingMsg (p : Str)
  | createdMsg (p : Str)
  | noLabMsg (id : Str)
  | thresholdMsg
  | wrdMissingMsg (p : Str)
  | phnMissingMsg (p : Str)
  | structureMsg (p : Str)
  | copyMsg (p : Str)
  | uncompressMsg (p : Str)
  | mkdirFailMsg (p : Str)
  deriving DecidableEq, Repr

/-- Observable events of a run, in program order. `logE` models
`logger_write`; per the spec (section 9) the reference behaviour only
logs error messages and keeps going, so logging never aborts here. -/
inductive Ev where
  | mkdirE (p : Str)
  | wtxt (p : Str) (lines : List Str)
  | wpkl (p : Str) (v : PklVal)
  | shell (cmd : Str)
  | logE (m : LogEv)
  deriving DecidableEq, Repr

/-- Events that write to the filesystem (log messages excluded). -/
def isWrite : Ev → Bool
  | Ev.mkdirE _ => true
  | Ev.wtxt _ _ => true
  | Ev.wpkl _ _ => true
  | Ev.shell _ => true
  | Ev.logE _ => false

/-- State of a run: the filesystem, the event trace so far, and whether
execution is still alive (`ok = false` models an uncaught exception,
after which nothing further runs). -/
structure Build where
  fs : FS
  trace : List Ev
  ok : Bool
  deriving DecidableEq, Repr

/-- Sequencing that models exception propagation: once a step has
failed, later steps do not run. -/
def seqIf (b : Build) (f : Build → Build) : Build :=
  if b.ok then f b else b

example : occursIn (chars ".wav") (chars "d/train/a.wav") = true := by decide
example : occursIn (chars "sa1") (chars "d/train/a.wav") = false := by decide
example : pySplitC '/' (chars "a/b/c.wav") = [chars "a", chars "b", chars "c.wav"] := by decide
example : replaceAll (chars "a.wav") (chars ".wav") (chars "") = chars "a" := by decide
example : replaceAll (chars "0 1 h#") (chars "h#") (chars "sil") = chars "0 1 sil" := by decide
example : pyDirname (chars "a/b/c") = chars "a/b" := by decide
example : pyDirname (chars "a/b/") = chars "a/b" := by decide
example : pyDirname (chars "abc") = chars "" := by decide
example : pyBasename (chars "x/y/T.tar.gz") = chars "T.tar.gz" := by decide
example : pyDirname (pyDirname (chars "/data/local/T/")) = chars "/data/local" := by decide
example : natToStr 16000 = chars "16000" := by decide
example : joinSep (chars "_") [chars "ab", chars "cd"] = chars "ab_cd" := by decide
example : pyStrip (chars "  a b \n") = chars "a b" := by decide
example : shellSplit (chars "rsync -a x y") = [chars "rsync", chars "-a", chars "x", chars "y"] := by decide

/-- Modelled from the spec: `utils.get_all_files` is not among the
staged sources. Per the spec it recursively enumerates the regular
files under `root` in deterministic traversal order and keeps a file
iff its full path contains every `match_and` token as a substring,
contains at least one `match_or` token when that set is non-empty, and
contains no `exclude_or` token; an absent (`[]`) `match_or` or
`exclude_or` imposes no constraint. -/
def matchFilePred (p : Str) (matchAnd matchOr excludeOr : List Str) : Bool :=
  matchAnd.all (fun t => occursIn t p)
    && (matchOr.isEmpty || matchOr.any (fun t => occursIn t p))
    && excludeOr.all (fun t => !occursIn t p)

/-- A regular file lies under the searched root. -/
def underRoot (root p : Str) : Bool :=
  leadsWith (root ++ chars "/") p

/-- Modelled from the spec: the discovery engine (see `matchFilePred`). -/
def get_all_files (fs : FS) (root : Str) (matchAnd matchOr excludeOr : List Str) :
    List Str :=
  (fs.files.map Prod.fst).filter
    (fun p => underRoot root p && matchFilePred p matchAnd matchOr excludeOr)

/-- The copy command string of `copy_data_locally`, built exactly as in
the source: `copy_cmd + " " + copy_opts + data_file + " " + dest_file`
(note: no separator between the copy options and the source path). -/
def mkCopyCmd (copy_cmd copy_opts data_file dest_file : Str) : Str :=
  copy_cmd ++ chars " " ++ copy_opts ++ data_file ++ chars " " ++ dest_file

/-- The decompress command string of `copy_data_locally`, built exactly
as in the source. -/
def mkUncompressCmd (uncompress_cmd uncompress_opts dest_file local_folder : Str) :
    Str :=
  uncompress_cmd ++ chars " " ++ uncompress_opts ++ dest_file ++ chars " -C "
    ++ chars " " ++ local_folder ++ chars " --strip-components=1"

/-- Staging of one archive: skip entirely when the destination path
already exists, otherwise copy then decompress. The effect of the copy
shell command is modelled from the spec ("copy the archive to the
destination"): a successful copy materialises the destination file;
decompression unpacks into the local folder and touches no path the
stager ever consults. -/
def copyOneFile (c : CopyConf) (upper lf : Str) (b : Build) (data_file : Str) :
    Build :=
  let dest_file := upper ++ chars "/" ++ pyBasename data_file
  if existsF b.fs dest_file then b
  else
    let cmd1 := mkCopyCmd c.copy_cmd c.copy_opts data_file dest_file
    let copied :=
      match fileAt b.fs data_file with
      | some content => setFile b.fs dest_file content
      | none => setFile b.fs dest_file (FContent.raw 0)
    let cmd2 := mkUncompressCmd c.uncompress_cmd c.uncompress_opts dest_file lf
    { fs := copied
      trace := b.trace
        ++ [Ev.logE (LogEv.copyMsg data_file), Ev.shell cmd1,
            Ev.logE (LogEv.uncompressMsg dest_file), Ev.shell cmd2]
      ok := true }

/-- The whole of `copy_data_locally.__init__` after option checking:
ensure the local folder exists, then stage every archive of the list. -/
def copy_data_locally (fs : FS) (c : CopyConf) : Build :=
  let b0 : Build :=
    if existsF fs c.local_folder then ⟨fs, [], true⟩
    else ⟨mkdirF fs c.local_folder, [Ev.mkdirE c.local_folder], true⟩
  let lf := c.local_folder ++ chars "/"
  let upper := pyDirname (pyDirname lf)
  c.data_file.foldl (copyOneFile c upper lf) b0

/-- Output-file paths of `timit_prepare`. -/
def timitOptPath (c : TimitConf) : Str :=
  c.save_folder ++ chars "/opt_timit_prepare.pkl"

/-- Manifest path of one TIMIT split. -/
def timitScpPath (c : TimitConf) (split : Str) : Str :=
  c.save_folder ++ chars "/" ++ split ++ chars ".scp"

/-- `timit_prepare.skip`: true only when the three split manifests and
the fingerprint file all exist and the loaded fingerprint is value-equal
to the current resolved configuration. -/
def timit_skip (fs : FS) (c : TimitConf) : Bool :=
  if isFileF fs (timitScpPath c (chars "train"))
      && isFileF fs (timitScpPath c (chars "dev"))
      && isFileF fs (timitScpPath c (chars "test"))
      && isFileF fs (timitOptPath c) then
    match load_pkl fs (timitOptPath c) with
    | some (PklVal.tconf old) => old == c
    | _ => false
  else false

/-- Fingerprint path of `librispeech_prepare`. -/
def libriOptPath (c : LibriConf) : Str :=
  c.save_folder ++ chars "/opt_librispeech_prepare.pkl"

/-- Manifest path of one LibriSpeech split. -/
def libriScpPath (c : LibriConf) (split : Str) : Str :=
  c.save_folder ++ chars "/" ++ split ++ chars ".scp"

/-- `librispeech_prepare.skip`, translated exactly: `skip` starts true,
is cleared for any requested split whose manifest is missing, and the
fingerprint comparison runs only when the fingerprint file exists — when
it does not, `skip` is returned unchanged (still true). -/
def librispeech_skip (fs : FS) (c : LibriConf) : Bool :=
  let skip := c.splits.foldl
    (fun sk split => if isFileF fs (libriScpPath c split) then sk else false) true
  if skip then
    if isFileF fs (libriOptPath c) then
      match load_pkl fs (libriOptPath c) with
      | some (PklVal.lconf old) => old == c
      | _ => false
    else skip
  else skip

/-- The calibration sentences excluded from every TIMIT split. -/
def avoidSentences : List Str := [chars "sa1", chars "sa2"]

/-- The TIMIT test-speaker codes (`self.test_spk`). -/
def testSpk : List Str :=
  [chars "fdhc0", chars "felc0", chars "fjlm0", chars "fmgd0", chars "fmld0",
   chars "fnlp0", chars "fpas0", chars "fpkt0", chars "mbpm0", chars "mcmj0",
   chars "mdab0", chars "mgrt0", chars "mjdh0", chars "mjln0", chars "mjmp0",
   chars "mklt0", chars "mlll0", chars "mlnt0", chars "mnjm0", chars "mpam0",
   chars "mtas1", chars "mtls0", chars "mwbt0", chars "mwew0"]

/-- The TIMIT dev-speaker codes (`self.dev_spk`). -/
def devSpk : List Str :=
  [chars "fadg0", chars "faks0", chars "fcal1", chars "fcmh0", chars "fdac1",
   chars "fdms0", chars "fdrw0", chars "fedw0", chars "fgjd0", chars "fjem0",
   chars "fjmg0", chars "fjsj0", chars "fkms0", chars "fmah0", chars "fmml0",
   chars "fnmr0", chars "frew0", chars "fsem0", chars "majc0", chars "mbdg0",
   chars "mbns0", chars "mbwm0", chars "mcsh0", chars "mdlf0", chars "mdls0",
   chars "mdvc0", chars "mers0", chars "mgjf0", chars "mglb0", chars "mgwt0",
   chars "mjar0", chars "mjfc0", chars "mjsw0", chars "mmdb1", chars "mmdm2",
   chars "mmjr0", chars "mmwh0", chars "mpdf0", chars "mrcs0", chars "mreb0",
   chars "mrjm4", chars "mrjr0", chars "mroa0", chars "mrtk0", chars "mrws1",
   chars "mtaa0", chars "mtdt0", chars "mteb0", chars "mthc0", chars "mwjg0"]

/-- Python negative indexing `l[-k]` (for `k ≥ 1`): `none` models the
raised IndexError. -/
def pyIdxNeg (l : List Str) (k : Nat) : Option Str :=
  if k ≤ l.length then l.get? (l.length - k) else none

/-- Speaker and sentence ids derived from a wav path:
`spk_id = wav_file.split("/")[-2]` and
`snt_id = spk_id + "_" + wav_file.split("/")[-1].replace(".wav", "")`. -/
def timitIds (wav_file : Str) : Option (Str × Str) :=
  let pieces := pySplitC '/' wav_file
  match pyIdxNeg pieces 2, pyIdxNeg pieces 1 with
  | some spk, some last =>
    some (spk, spk ++ chars "_" ++ replaceAll last (chars ".wav") (chars ""))
  | _, _ => none

/-- The third blank-separated field of a `.wrd` line after stripping the
trailing newline (`line.rstrip("\n").split(" ")[2]`). -/
def timitWrdSym (line : Str) : Option Str :=
  (pySplitC ' ' (rstripNl line)).get? 2

/-- The third blank-separated field of a `.phn` line, with `h#`
rewritten to `sil` before splitting
(`line.rstrip("\n").replace("h#", "sil").split(" ")[2]`). -/
def timitPhnSym (line : Str) : Option Str :=
  (pySplitC ' ' (replaceAll (rstripNl line) (chars "h#") (chars "sil"))).get? 2

/-- One symbol per line, failing when any line fails (the Python list
comprehension raises on the first bad line). -/
def mapLines (f : Str → Option Str) : List Str → Option (List Str)
  | [] => some []
  | a :: rest =>
    match f a, mapLines f rest with
    | some b, some bs => some (b :: bs)
    | _, _ => none

/-- All word symbols of a `.wrd` file. -/
def timitWrdSyms (ls : List Str) : Option (List Str) := mapLines timitWrdSym ls

/-- All phoneme symbols of a `.phn` file. -/
def timitPhnSyms (ls : List Str) : Option (List Str) := mapLines timitPhnSym ls

/-- One manifest record of a TIMIT split; `dur` is the sample count
(`duration = dur / 16000`). -/
structure TimitRecord where
  sntId : Str
  dur : Nat
  wav : Str
  spkId : Str
  phn : Str
  wrd : Str
  labPath : Option Str
  deriving DecidableEq, Repr

/-- The payloads of one rendered TIMIT manifest line, in field order
(the values inside the `key=value` / `key=(payload,tag)` tokens). -/
def recPayloads (r : TimitRecord) : List Str :=
  [r.sntId, durStr r.dur, r.wav, r.spkId,
   replaceAll r.phn (chars " ") (chars "_"),
   replaceAll r.wrd (chars " ") (chars "_")]
    ++ (match r.labPath with | some p => [p] | none => [])

/-- Rendering of one TIMIT manifest line, following the source's string
composition (including the final `.replace(" ", "_")` on the phoneme and
word fields). -/
def renderT (r : TimitRecord) : Str :=
  chars "ID=" ++ r.sntId
    ++ chars " duration=" ++ durStr r.dur
    ++ chars " wav=(" ++ r.wav ++ chars ",wav)"
    ++ chars " spk_id=(" ++ r.spkId ++ chars ",string)"
    ++ chars " phn=(" ++ replaceAll r.phn (chars " ") (chars "_") ++ chars ",string)"
    ++ chars " wrd=(" ++ replaceAll r.wrd (chars " ") (chars "_") ++ chars ",string)"
    ++ (match r.labPath with
        | some p => chars " kaldi_lab=(" ++ p ++ chars ",pkl)"
        | none => [])

/-- Loop state of `timit_prepare.create_scp`: the filesystem, the trace,
the `snt_no_lab` counter, the `missing_lab` flag, the last value bound
to `snt_lab_path` (`none` while the Python variable is still unbound,
so using it then models the NameError), and the records so far. -/
structure ScpSt where
  fs : FS
  trace : List Ev
  sntNoLab : Nat
  missingLab : Bool
  sntLabPath : Option Str
  recs : List TimitRecord
  deriving Repr

/-- The label-store stage of one loop iteration of
`timit_prepare.create_scp` (lines 672-698), translated faithfully: the
miss branch assigns `missing_lab = False` (not True), logs, and bumps
`snt_no_lab`; the hit branch persists the blob and rebinds
`snt_lab_path`; then the threshold test compares
`snt_no_lab / len(wav_lst)` against `0.05` — rendered as the exact
integer comparison `20 * snt_no_lab > nTotal`, equivalent for all list
lengths in range — and on breach only logs the fatal message. -/
def labStage (kaldiLab : Option Str) (lab : List (Str × Nat)) (labOutDir : Str)
    (nTotal : Nat) (st : ScpSt) (snt_id : Str) : ScpSt :=
  match kaldiLab with
  | none => st
  | some _ =>
    let stA :=
      if !(labHas lab snt_id) then
        { st with missingLab := false,
                  trace := st.trace ++ [Ev.logE (LogEv.noLabMsg snt_id)],
                  sntNoLab := st.sntNoLab + 1 }
      else
        let p := labOutDir ++ chars "/" ++ snt_id ++ chars ".pkl"
        let v := PklVal.blob ((labGet lab snt_id).getD 0)
        { st with sntLabPath := some p,
                  fs := setFile st.fs p (FContent.pkl v),
                  trace := st.trace ++ [Ev.wpkl p v] }
    if 20 * stA.sntNoLab > nTotal then
      { stA with trace := stA.trace ++ [Ev.logE LogEv.thresholdMsg] }
    else stA

/-- The existence check preceding each metadata `open` (lines 709-713
and 724-728): note it tests `os.path.dirname` of the metadata file, not
the file itself, and only logs when even the directory is missing. -/
def warnIfDirMissing (st : ScpSt) (f : Str) (mk : Str → LogEv) : ScpSt :=
  if !(existsF st.fs (pyDirname f)) then
    { st with trace := st.trace ++ [Ev.logE (mk f)] }
  else st

/-- The record-building stage of one loop iteration of
`timit_prepare.create_scp` (lines 703-761): read the audio length, the
`.wrd` and `.phn` sibling files, compose the record, and attach the
last bound `snt_lab_path` when a label source is configured; the
returned flag is false when the Python code would raise (unreadable
audio, a missing metadata file, a short metadata line, or the unbound
`snt_lab_path`). -/
def bodyStage (kaldiLab : Option Str) (st1 : ScpSt) (wav_file spk_id snt_id : Str) :
    ScpSt × Bool :=
  match read_wav_soundfile st1.fs wav_file with
  | none => (st1, false)
  | some nsamples =>
    let wrd_file := replaceAll wav_file (chars ".wav") (chars ".wrd")
    let st2 := warnIfDirMissing st1 wrd_file LogEv.wrdMissingMsg
    match (readTextF st2.fs wrd_file).bind timitWrdSyms with
    | none => (st2, false)
    | some wrdSyms =>
      let words := joinSep (chars "_") wrdSyms
      let phn_file := replaceAll wav_file (chars ".wav") (chars ".phn")
      let st3 := warnIfDirMissing st2 phn_file LogEv.phnMissingMsg
      match (readTextF st3.fs phn_file).bind timitPhnSyms with
      | none => (st3, false)
      | some phnSyms =>
        let phonemes := joinSep (chars "_") phnSyms
        match kaldiLab with
        | none =>
          ({ st3 with
              recs := st3.recs
                ++ [⟨snt_id, nsamples, wav_file, spk_id, phonemes, words, none⟩] },
           true)
        | some _ =>
          match st3.sntLabPath with
          | none => (st3, false)
          | some p =>
            ({ st3 with
                recs := st3.recs
                  ++ [⟨snt_id, nsamples, wav_file, spk_id, phonemes, words, some p⟩] },
             true)

/-- Processing of one wav file inside `timit_prepare.create_scp`: derive
the ids (an IndexError on `wav_file.split("/")[-2]` fails the run), run
the label stage, honour the (dead) `missing_lab` skip, then build the
record. -/
def processWav (kaldiLab : Option Str) (lab : List (Str × Nat)) (labOutDir : Str)
    (nTotal : Nat) (st : ScpSt) (wav_file : Str) : ScpSt × Bool :=
  match timitIds wav_file with
  | none => (st, false)
  | some (spk_id, snt_id) =>
    let st1 := labStage kaldiLab lab labOutDir nTotal st snt_id
    if st1.missingLab then (st1, true)
    else bodyStage kaldiLab st1 wav_file spk_id snt_id

/-- The wav-processing loop of `timit_prepare.create_scp`; stops at the
first file whose processing raises. -/
def processList (kaldiLab : Option Str) (lab : List (Str × Nat)) (labOutDir : Str)
    (nTotal : Nat) : List Str → ScpSt → ScpSt × Bool
  | [], st => (st, true)
  | w :: ws, st =>
    match processWav kaldiLab lab labOutDir nTotal st w with
    | (st', true) => processList kaldiLab lab labOutDir nTotal ws st'
    | (st', false) => (st', false)

/-- `timit_prepare.create_scp`: load the label store when requested,
process every wav file, then write the manifest in one full rewrite.
Besides the run outcome it returns the final loop state (the records it
accumulated and the `snt_no_lab` counter). -/
def timit_create_scp (fs : FS) (save_folder : Str) (wav_lst : List Str)
    (scp_file : Str) (kaldi_lab : Option Str) : Build × ScpSt :=
  let tr0 := [Ev.logE (LogEv.creatingMsg scp_file)]
  let labOutDir := save_folder ++ chars "/kaldi_labels"
  let start : FS × List Ev × List (Str × Nat) :=
    match kaldi_lab with
    | none => (fs, tr0, [])
    | some dir =>
      let lab := read_kaldi_lab fs dir
      if existsF fs labOutDir then (fs, tr0, lab)
      else (mkdirF fs labOutDir, tr0 ++ [Ev.mkdirE labOutDir], lab)
  let st0 : ScpSt := ⟨start.1, start.2.1, 0, false, none, []⟩
  match processList kaldi_lab start.2.2 labOutDir wav_lst.length wav_lst st0 with
  | (st, true) =>
    let lines := st.recs.map renderT
    (⟨setFile st.fs scp_file (FContent.text lines),
      st.trace ++ [Ev.wtxt scp_file lines, Ev.logE (LogEv.createdMsg scp_file)],
      true⟩,
     st)
  | (st, false) => (⟨st.fs, st.trace, false⟩, st)

/-- `timit_prepare.check_timit_folders`: logs a structure error for each
missing expected sub-folder (per the spec's section 9, `logger_write`
logs and execution continues). -/
def check_timit_folders (fs : FS) (c : TimitConf) : List Ev :=
  (if existsF fs (c.data_folder ++ chars "/test/dr1") then []
   else [Ev.logE (LogEv.structureMsg (c.data_folder ++ chars "/test/dr1"))])
    ++ (if existsF fs (c.data_folder ++ chars "/train/dr1") then []
        else [Ev.logE (LogEv.structureMsg (c.data_folder ++ chars "/train/dr1"))])

/-- Discovery plus manifest build for one TIMIT split. -/
def runTimitSplit (c : TimitConf) (matchAnd matchOr : List Str)
    (kaldi : Option Str) (split : Str) (b : Build) : Build :=
  let wavs := get_all_files b.fs c.data_folder matchAnd matchOr avoidSentences
  let out := (timit_create_scp b.fs c.save_folder wavs (timitScpPath c split) kaldi).1
  ⟨out.fs, b.trace ++ out.trace, out.ok⟩

/-- One conditional split build of `timit_prepare.__init__`
(`if "<split>" in self.splits: ... create_scp(...)`). -/
def timitSplitStage (c : TimitConf) (split : Str) (matchAnd matchOr : List Str)
    (kaldi : Option Str) (b : Build) : Build :=
  if c.splits.contains split then
    seqIf b (runTimitSplit c matchAnd matchOr kaldi split)
  else b

/-- The three conditional split builds of `timit_prepare.__init__`, in
program order (train, dev, test). -/
def timitBody (c : TimitConf) (b1 : Build) : Build :=
  timitSplitStage c (chars "test") [chars ".wav", chars "test"] testSpk
    c.kaldi_ali_test
    (timitSplitStage c (chars "dev") [chars ".wav", chars "test"] devSpk
      c.kaldi_ali_dev
      (timitSplitStage c (chars "train") [chars ".wav", chars "train"] []
        c.kaldi_ali_tr b1))

/-- The whole of `timit_prepare.__init__` after option checking: ensure
the save folder exists, consult `skip`, otherwise validate the corpus
root, build each requested split, and finally persist the fingerprint. -/
def timit_prepare (fs : FS) (c : TimitConf) : Build :=
  let b0 : Build :=
    if existsF fs c.save_folder then ⟨fs, [], true⟩
    else ⟨mkdirF fs c.save_folder, [Ev.mkdirE c.save_folder], true⟩
  if timit_skip b0.fs c then
    { b0 with trace := b0.trace
        ++ [Ev.logE (LogEv.createdMsg (timitScpPath c (chars "train"))),
            Ev.logE (LogEv.createdMsg (timitScpPath c (chars "dev"))),
            Ev.logE (LogEv.createdMsg (timitScpPath c (chars "test")))] }
  else
    let b1 := { b0 with trace := b0.trace ++ check_timit_folders b0.fs c }
    seqIf (timitBody c b1) (fun b =>
      ⟨setFile b.fs (timitOptPath c) (FContent.pkl (PklVal.tconf c)),
       b.trace ++ [Ev.wpkl (timitOptPath c) (PklVal.tconf c)], true⟩)

/-- Python dict assignment `d[k] = v`: overwrite in place, or append. -/
def dictUpd (d : List (Str × Str)) (k v : Str) : List (Str × Str) :=
  if d.any (fun e => e.1 == k) then
    d.map (fun e => if e.1 == k then (k, v) else e)
  else d ++ [(k, v)]

/-- Python dict lookup `d[k]`; `none` models the KeyError. -/
def dictGet (d : List (Str × Str)) (k : Str) : Option Str :=
  (d.find? (fun e => e.1 == k)).map Prod.snd

/-- One transcription line folded into the dictionary:
`line_lst = line.strip().split(" ")` and
`text_dict[line_lst[0]] = "_".join(line_lst[1:])`. -/
def textLineUpd (d : List (Str × Str)) (line : Str) : List (Str × Str) :=
  let lst := pySplitC ' ' (pyStrip line)
  dictUpd d (lst.headD []) (joinSep (chars "_") (lst.drop 1))

/-- All lines of one transcription file folded into the dictionary. -/
def textLinesToDict (d : List (Str × Str)) : List Str → List (Str × Str)
  | [] => d
  | line :: rest => textLinesToDict (textLineUpd d line) rest

/-- `librispeech_prepare.text_to_dict`: reads every transcription file
of the list into one dictionary; `none` models a raised read error. -/
def text_to_dict (fs : FS) : List Str → List (Str × Str) → Option (List (Str × Str))
  | [], d => some d
  | f :: rest, d =>
    match readTextF fs f with
    | none => none
    | some ls => text_to_dict fs rest (textLinesToDict d ls)

/-- One manifest record of a LibriSpeech split. -/
structure LibriRecord where
  sntId : Str
  dur : Nat
  wav : Str
  spkId : Str
  wrd : Str
  deriving DecidableEq, Repr

/-- The payloads of one rendered LibriSpeech manifest line. -/
def recPayloadsL (r : LibriRecord) : List Str :=
  [r.sntId, durStr r.dur, r.wav, r.spkId, r.wrd]

/-- Rendering of one LibriSpeech manifest line, following the source's
string composition. -/
def renderL (r : LibriRecord) : Str :=
  chars "ID=" ++ r.sntId
    ++ chars " duration=" ++ durStr r.dur
    ++ chars " wav=(" ++ r.wav ++ chars ",flac)"
    ++ chars " spk_id=(" ++ r.spkId ++ chars ",string)"
    ++ chars " wrd=(" ++ r.wrd ++ chars ",string)"

/-- The wav-processing loop of `librispeech_prepare.create_scp`:
`snt_id` is the basename without `.flac`, `spk_id` rejoins the first two
dash-separated pieces, the transcript is looked up in the dictionary
(KeyError modelled as failure), and the loop breaks once the counter
equals `select_n_sentences`. -/
def libriLoop (fs : FS) (dict : List (Str × Str)) (seln : Nat) :
    List Str → Nat → List LibriRecord → List LibriRecord × Bool
  | [], _, recs => (recs, true)
  | w :: ws, cnt, recs =>
    let snt_id :=
      replaceAll ((pySplitC '/' w).getLastD []) (chars ".flac") (chars "")
    let spk_id := joinSep (chars "-") ((pySplitC '-' snt_id).take 2)
    match dictGet dict snt_id, read_wav_soundfile fs w with
    | some wrd, some nsamples =>
      let recs' := recs ++ [⟨snt_id, nsamples, w, spk_id, wrd⟩]
      let cnt' := cnt + 1
      if cnt' == seln then (recs', true)
      else libriLoop fs dict seln ws cnt' recs'
    | _, _ => (recs, false)

/-- `librispeech_prepare.create_scp` for one split. -/
def librispeech_create_scp (fs : FS) (c : LibriConf) (dict : List (Str × Str))
    (wav_lst : List Str) (split : Str) (seln : Nat) : Build × List LibriRecord :=
  let scp_file := libriScpPath c split
  let tr0 := [Ev.logE (LogEv.creatingMsg scp_file)]
  match libriLoop fs dict seln wav_lst 0 [] with
  | (recs, true) =>
    let lines := recs.map renderL
    (⟨setFile fs scp_file (FContent.text lines),
      tr0 ++ [Ev.wtxt scp_file lines, Ev.logE (LogEv.createdMsg scp_file)], true⟩,
     recs)
  | (recs, false) => (⟨fs, tr0, false⟩, recs)

/-- `librispeech_prepare.check_librispeech_folders` (logs, continues). -/
def check_librispeech_folders (fs : FS) (c : LibriConf) : List Ev :=
  (c.splits.map (fun s =>
    if existsF fs (c.data_folder ++ chars "/" ++ s) then []
    else [Ev.logE (LogEv.structureMsg (c.data_folder ++ chars "/" ++ s))])).flatten

/-- Discovery, transcript loading and manifest build for one
LibriSpeech split (one iteration of the `__init__` split loop; `idx` is
`split_index`, used to index `select_n_sentences`). -/
def libriSplitStep (c : LibriConf) (idx : Nat) (split : Str) (b : Build) : Build :=
  let root := c.data_folder ++ chars "/" ++ split
  let wav_lst := get_all_files b.fs root [chars ".flac"] [] []
  let text_lst := get_all_files b.fs root [chars "trans.txt"] [] []
  match text_to_dict b.fs text_lst [] with
  | none => ⟨b.fs, b.trace, false⟩
  | some dict =>
    let selnOpt :=
      match c.select_n_sentences with
      | none => some wav_lst.length
      | some l => l.get? idx
    match selnOpt with
    | none => ⟨b.fs, b.trace, false⟩
    | some seln =>
      let out := (librispeech_create_scp b.fs c dict wav_lst split seln).1
      ⟨out.fs, b.trace ++ out.trace, out.ok⟩

/-- The whole of `librispeech_prepare.__init__` after option checking. -/
def librispeech_prepare (fs : FS) (c : LibriConf) : Build :=
  let b0 : Build :=
    if existsF fs c.save_folder then ⟨fs, [], true⟩
    else ⟨mkdirF fs c.save_folder, [Ev.mkdirE c.save_folder], true⟩
  if librispeech_skip b0.fs c then
    { b0 with trace := b0.trace
        ++ c.splits.map (fun s => Ev.logE (LogEv.createdMsg (libriScpPath c s))) }
  else
    let b1 := { b0 with trace := b0.trace ++ check_librispeech_folders b0.fs c }
    let b2 := c.splits.enum.foldl
      (fun b p => if b.ok then libriSplitStep c p.1 p.2 b else b) b1
    seqIf b2 (fun b =>
      ⟨setFile b.fs (libriOptPath c) (FContent.pkl (PklVal.lconf c)),
       b.trace ++ [Ev.wpkl (libriOptPath c) (PklVal.lconf c)], true⟩)

/-- A manifest-write event at path `p`. -/
def isWtxtAt (p : Str) : Ev → Bool
  | Ev.wtxt q _ => q == p
  | _ => false

/-- Any manifest-write event. -/
def isWtxtEv : Ev → Bool
  | Ev.wtxt _ _ => true
  | _ => false

/-- A pickle-write event at path `p`. -/
def isWpklAt (p : Str) : Ev → Bool
  | Ev.wpkl q _ => q == p
  | _ => false

/-
  Concrete fixtures used by the counterexample and failing-input
  theorems below. `fxTimit` is a two-utterance TIMIT-style corpus whose
  kaldi label store covers only the first utterance.
-/

/-- A tiny TIMIT corpus: two wav files with their sibling metadata, and
a kaldi label store containing a label for `spk_a` but none for
`spk_b`. -/
def fxTimit : FS :=
  ⟨[chars "d", chars "d/train/dr1/spk"],
   [(chars "d/train/dr1/spk/a.wav", FContent.wav 16000),
    (chars "d/train/dr1/spk/a.wrd", FContent.text [chars "0 1 hello"]),
    (chars "d/train/dr1/spk/a.phn", FContent.text [chars "0 1 h#"]),
    (chars "d/train/dr1/spk/b.wav", FContent.wav 8000),
    (chars "d/train/dr1/spk/b.wrd", FContent.text [chars "0 1 world"]),
    (chars "d/train/dr1/spk/b.phn", FContent.text [chars "0 1 sh"]),
    (chars "klab", FContent.lab [(chars "spk_a", 7)])]⟩

/-- The discovered wav list of `fxTimit`. -/
def fxWavs : List Str :=
  [chars "d/train/dr1/spk/a.wav", chars "d/train/dr1/spk/b.wav"]

/-- The `fxTimit` build with the label store attached. -/
def fxRun : Build × ScpSt :=
  timit_create_scp fxTimit (chars "sf") fxWavs (chars "sf/train.scp")
    (some (chars "klab"))

/-- A one-utterance corpus whose `.wrd` sibling file is absent while the
directory containing it exists (`a.phn` is present). -/
def fxNoWrd : FS :=
  ⟨[chars "d", chars "d/train/dr1/spk"],
   [(chars "d/train/dr1/spk/a.wav", FContent.wav 16000),
    (chars "d/train/dr1/spk/a.phn", FContent.text [chars "0 1 h#"])]⟩

/-- The build over `fxNoWrd` (no label source). -/
def fxNoWrdRun : Build × ScpSt :=
  timit_create_scp fxNoWrd (chars "sf") [chars "d/train/dr1/spk/a.wav"]
    (chars "sf/train.scp") none

/-- A LibriSpeech save folder holding the manifest of the one requested
split but no fingerprint file. -/
def fxLibriFS : FS :=
  ⟨[chars "sf"], [(chars "sf/dev-clean.scp", FContent.text [])]⟩

/-- The LibriSpeech configuration of the `fxLibriFS` scenario. -/
def fxLibriConf : LibriConf :=
  ⟨chars "L", [chars "dev-clean"], chars "sf", none⟩

/-- A TIMIT configuration requesting only the `train` split. -/
def fxTrainOnlyConf : TimitConf :=
  ⟨chars "d", [chars "train"], none, none, none, none, chars "sf"⟩

/-- A TIMIT configuration requesting all three splits. -/
def fxAllSplitsConf : TimitConf :=
  ⟨chars "d", [chars "train", chars "dev", chars "test"],
   none, none, none, none, chars "sf"⟩

/-- C1: the claim demands that the skip decision return true only when
the fingerprint file exists (and matches); `librispeech_prepare.skip`
returns true on a state where every requested split manifest exists but
the fingerprint file does not exist at all, because the branch guarded
by `os.path.isfile(self.save_opt)` has no else and leaves `skip` at its
initial `True`. -/
theorem C1_librispeech_skip_true_without_fingerprint :
    librispeech_skip fxLibriFS fxLibriConf = true
      ∧ isFileF fxLibriFS (libriOptPath fxLibriConf) = false
      ∧ (fxLibriConf.splits.all
          (fun s => isFileF fxLibriFS (libriScpPath fxLibriConf s))) = true := by
  decide

/-- C2: on a two-utterance build whose label store misses `spk_b`, the
per-build counter `snt_no_lab` is incremented to 1, yet the record for
`spk_b` is still present in the emitted manifest (the miss branch
assigns `missing_lab = False`, so the `continue` that should exclude the
record never fires, and the record even carries the stale label path of
the previous hit). -/
theorem C2_missing_label_record_still_emitted :
    (fxRun.2.sntNoLab = 1
        ∧ labHas (read_kaldi_lab fxTimit (chars "klab")) (chars "spk_b") = false)
      ∧ fxRun.1.ok = true
      ∧ (fxRun.2.recs.map TimitRecord.sntId).contains (chars "spk_b") = true
      ∧ (fxRun.2.recs.map TimitRecord.sntId)
          = [chars "spk_a", chars "spk_b"] := by
  decide

/-- C3 counterexample: with `N = 2` processed utterances and exactly
`ceil(0.05 * 2) = 1` missing label, the claim says the build succeeds
with that utterance excluded; the code instead emits the fatal
too-many-missing-labels message (its test is `1/2 > 0.05`) and excludes
nothing. The arithmetic conjunct records that 1 is indeed
`ceil(0.05 * N)` for `N = 2` (`(2 * 5 + 99) / 100 = 1`). -/
theorem C3_threshold_error_at_ceil_boundary :
    fxRun.1.trace.contains (Ev.logE LogEv.thresholdMsg) = true
      ∧ fxRun.2.sntNoLab = 1
      ∧ fxWavs.length = 2
      ∧ (fxWavs.length * 5 + 99) / 100 = fxRun.2.sntNoLab
      ∧ fxRun.1.ok = true
      ∧ fxRun.2.recs.length = 2 := by
  decide

/-- C7: when an utterance's `.wrd` sibling file is absent (while the
directory holding it exists, as it always does since the wav file lives
there), no per-utterance defect is recorded — the existence check is on
`os.path.dirname(wrd_file)`, which passes — and the subsequent
unconditional `open(wrd_file)` raises, aborting the build with no
record emitted and no manifest written. -/
theorem C7_missing_wrd_aborts_run_without_defect :
    (isFileF fxNoWrd (chars "d/train/dr1/spk/a.wrd") = false
        ∧ existsF fxNoWrd (pyDirname (chars "d/train/dr1/spk/a.wrd")) = true)
      ∧ fxNoWrdRun.1.ok = false
      ∧ fxNoWrdRun.1.trace.contains
          (Ev.logE (LogEv.wrdMissingMsg (chars "d/train/dr1/spk/a.wrd"))) = false
      ∧ fxNoWrdRun.2.recs = []
      ∧ fxNoWrdRun.1.trace.any isWtxtEv = false := by
  decide

/-- C5 counterexample: with an unchanged corpus and configuration whose
`splits` is only `["train"]`, the first run completes but the second run
does not take the skip branch (the skip test requires all three split
manifests, including the never-built `dev.scp` and `test.scp`) and it
performs filesystem-writing work again (it rewrites `train.scp` and the
fingerprint). -/
theorem C5_second_run_rebuilds_on_partial_splits :
    (timit_prepare ⟨[], []⟩ fxTrainOnlyConf).ok = true
      ∧ timit_skip (timit_prepare ⟨[], []⟩ fxTrainOnlyConf).fs fxTrainOnlyConf
          = false
      ∧ ((timit_prepare (timit_prepare ⟨[], []⟩ fxTrainOnlyConf).fs
            fxTrainOnlyConf).trace.filter isWrite).length = 2
      ∧ (timit_prepare (timit_prepare ⟨[], []⟩ fxTrainOnlyConf).fs
            fxTrainOnlyConf).trace.any
          (isWtxtAt (timitScpPath fxTrainOnlyConf (chars "train"))) = true := by
  decide

/-- C10 counterexample: `copy_opts = "-a "` is a non-empty string, yet
the copy options and the archive path are not fused into a single shell
token — the trailing blank inside `copy_opts` separates them — so the
universally quantified claim fails at this configuration. -/
theorem C10_trailing_blank_opts_not_fused :
    shellSplit (mkCopyCmd (chars "rsync") (chars "-a ") (chars "/ds/T.tar")
        (chars "/loc/T.tar"))
      = [chars "rsync", chars "-a", chars "/ds/T.tar", chars "/loc/T.tar"]
      ∧ (chars "-a " ≠ [])
      ∧ ¬ (chars "-a " ++ chars "/ds/T.tar")
            ∈ shellSplit (mkCopyCmd (chars "rsync") (chars "-a ")
                (chars "/ds/T.tar") (chars "/loc/T.tar")) := by
  decide


theorem setEntries_find?_self (l : List (Str × FContent)) (p : Str) (c : FContent) :
    (setEntries l p c).find? (fun e => e.1 == p) = some (p, c) := by
  induction l with
  | nil => simp [setEntries, List.find?]
  | cons a rest ih =>
    by_cases hap : (a.1 == p) = true
    · simp [setEntries, hap, List.find?]
    · simp only [setEntries, hap, Bool.false_eq_true, if_false]
      rw [List.find?_cons_of_neg _ (by simp [hap])]
      exact ih

theorem setEntries_find?_other (l : List (Str × FContent)) (p q : Str)
    (c : FContent) (hne : q ≠ p) :
    (setEntries l p c).find? (fun e => e.1 == q)
      = l.find? (fun e => e.1 == q) := by
  induction l with
  | nil =>
    simp only [setEntries, List.find?]
    have : (p == q) = false := by
      simp only [beq_eq_false_iff_ne, ne_eq]
      exact fun hcon => hne hcon.symm
    simp [this]
  | cons a rest ih =>
    by_cases hap : (a.1 == p) = true
    · have hpeq : a.1 = p := beq_iff_eq.mp hap
      have hpq : ((p, c).1 == q) = false := by
        simp only [beq_eq_false_iff_ne, ne_eq]
        exact fun hcon => hne hcon.symm
      have haq : (a.1 == q) = false := by
        simp only [beq_eq_false_iff_ne, ne_eq]
        intro hcon
        exact hne (hpeq ▸ hcon).symm
      simp only [setEntries, hap, if_true]
      rw [List.find?_cons_of_neg _ (by simp [hpq]),
        List.find?_cons_of_neg _ (by simp [haq])]
    · simp only [setEntries, hap, Bool.false_eq_true, if_false]
      by_cases haq : (a.1 == q) = true
      · rw [@List.find?_cons_of_pos _ (fun e => e.1 == q) a _ haq,
          @List.find?_cons_of_pos _ (fun e => e.1 == q) a _ haq]
      · rw [List.find?_cons_of_neg _ (by simp [haq]),
          List.find?_cons_of_neg _ (by simp [haq])]
        exact ih

theorem setEntries_any_mono (l : List (Str × FContent)) (p q : Str)
    (c : FContent) (h : l.any (fun e => e.1 == q) = true) :
    (setEntries l p c).any (fun e => e.1 == q) = true := by
  induction l with
  | nil => cases h
  | cons a rest ih =>
    simp only [List.any_cons, Bool.or_eq_true] at h
    by_cases hap : (a.1 == p) = true
    · simp only [setEntries, hap, if_true, List.any_cons, Bool.or_eq_true]
      rcases h with h1 | h1
      · left
        have hq : a.1 = q := beq_iff_eq.mp h1
        have hp : a.1 = p := beq_iff_eq.mp hap
        simp [← hp, hq]
      · right
        exact h1
    · simp only [setEntries, hap, Bool.false_eq_true, if_false, List.any_cons,
        Bool.or_eq_true]
      rcases h with h1 | h1
      · left
        exact h1
      · right
        exact ih h1

theorem setEntries_any_self (l : List (Str × FContent)) (p : Str) (c : FContent) :
    (setEntries l p c).any (fun e => e.1 == p) = true := by
  induction l with
  | nil => simp [setEntries]
  | cons a rest ih =>
    by_cases hap : (a.1 == p) = true
    · simp [setEntries, hap]
    · simp only [setEntries, hap, Bool.false_eq_true, if_false, List.any_cons,
        Bool.or_eq_true]
      right
      exact ih

theorem isFileF_setFile_self (fs : FS) (p : Str) (c : FContent) :
    isFileF (setFile fs p c) p = true :=
  setEntries_any_self fs.files p c

theorem isFileF_setFile_mono {fs : FS} {p : Str} (q : Str) (c : FContent)
    (h : isFileF fs p = true) : isFileF (setFile fs q c) p = true :=
  setEntries_any_mono fs.files q p c h

theorem existsF_setFile_mono {fs : FS} {p : Str} (q : Str) (c : FContent)
    (h : existsF fs p = true) : existsF (setFile fs q c) p = true := by
  rcases Bool.or_eq_true _ _ |>.mp h with hd | hf
  · exact Bool.or_eq_true _ _ |>.mpr (Or.inl hd)
  · exact Bool.or_eq_true _ _ |>.mpr (Or.inr (isFileF_setFile_mono q c hf))

theorem existsF_mkdirF_mono {fs : FS} {p : Str} (d : Str)
    (h : existsF fs p = true) : existsF (mkdirF fs d) p = true := by
  rcases Bool.or_eq_true _ _ |>.mp h with hd | hf
  · refine Bool.or_eq_true _ _ |>.mpr (Or.inl ?_)
    rcases List.any_eq_true.mp hd with ⟨x, hx, hxp⟩
    exact List.any_eq_true.mpr ⟨x, List.mem_append.mpr (Or.inl hx), hxp⟩
  · exact Bool.or_eq_true _ _ |>.mpr (Or.inr hf)

theorem isFileF_mkdirF_mono {fs : FS} {p : Str} (d : Str)
    (h : isFileF fs p = true) : isFileF (mkdirF fs d) p = true := h

theorem existsF_mkdirF_self (fs : FS) (d : Str) :
    existsF (mkdirF fs d) d = true := by
  refine Bool.or_eq_true _ _ |>.mpr (Or.inl ?_)
  simp [mkdirF]

theorem fileAt_setFile_self (fs : FS) (p : Str) (c : FContent) :
    fileAt (setFile fs p c) p = some c := by
  simp [fileAt, setFile, setEntries_find?_self]

theorem fileAt_setFile_other {fs : FS} {p q : Str} (c : FContent)
    (hne : p ≠ q) : fileAt (setFile fs q c) p = fileAt fs p := by
  simp only [fileAt, setFile, setEntries_find?_other fs.files q p c hne]

theorem fileAt_mkdirF (fs : FS) (p d : Str) :
    fileAt (mkdirF fs d) p = fileAt fs p := rfl

theorem isFileF_of_fileAt {fs : FS} {p : Str} {c : FContent}
    (h : fileAt fs p = some c) : isFileF fs p = true := by
  simp only [fileAt] at h
  rcases Option.map_eq_some'.mp h with ⟨e, he, _⟩
  have hp := List.find?_some he
  exact List.any_eq_true.mpr ⟨e, List.mem_of_find?_eq_some he, hp⟩

/-- C4: discovery correctness. For every regular file `f` under the
searched root, `f` is in the discovered list iff its full path contains
every `match_and` token as a substring, at least one `match_or` token
when that set is non-empty, and no `exclude_or` token; an absent
(empty) `match_or` or `exclude_or` imposes no constraint. The membership
also shows an empty result is just an empty list, not an error. -/
theorem C4_discovery_iff (fs : FS) (root : Str) (ma mo eo : List Str) (f : Str) :
    f ∈ get_all_files fs root ma mo eo
      ↔ (f ∈ fs.files.map Prod.fst ∧ underRoot root f = true
          ∧ (∀ t ∈ ma, occursIn t f = true)
          ∧ (mo ≠ [] → ∃ t ∈ mo, occursIn t f = true)
          ∧ (∀ t ∈ eo, occursIn t f = false)) := by
  simp only [get_all_files, List.mem_filter, matchFilePred, Bool.and_eq_true,
    List.all_eq_true, List.any_eq_true, Bool.or_eq_true, Bool.not_eq_true']
  constructor
  · rintro ⟨hmem, hroot, ⟨⟨hma, hmo⟩, heo⟩⟩
    refine ⟨hmem, hroot, hma, ?_, heo⟩
    intro hne
    rcases hmo with hemp | hex
    · cases mo with
      | nil => exact absurd rfl hne
      | cons a l => simp [List.isEmpty] at hemp
    · exact hex
  · rintro ⟨hmem, hroot, hma, hmo, heo⟩
    refine ⟨hmem, hroot, ⟨⟨hma, ?_⟩, heo⟩⟩
    cases mo with
    | nil => exact Or.inl rfl
    | cons a l => exact Or.inr (hmo (by simp))

theorem existsF_of_isFileF {fs : FS} {p : Str} (h : isFileF fs p = true) :
    existsF fs p = true := by
  unfold existsF
  rw [h]
  simp

theorem copyDest_exists_after (c : CopyConf) (upper lf : Str) (b : Build)
    (df : Str) :
    existsF (copyOneFile c upper lf b df).fs
      (upper ++ chars "/" ++ pyBasename df) = true := by
  simp only [copyOneFile]
  by_cases h : existsF b.fs (upper ++ chars "/" ++ pyBasename df) = true
  · rw [if_pos h]
    exact h
  · rw [if_neg h]
    cases fileAt b.fs df with
    | none => exact existsF_of_isFileF (isFileF_setFile_self _ _ _)
    | some content => exact existsF_of_isFileF (isFileF_setFile_self _ _ _)

theorem copyOneFile_exists_mono (c : CopyConf) (upper lf : Str) (b : Build)
    (df p : Str) (h : existsF b.fs p = true) :
    existsF (copyOneFile c upper lf b df).fs p = true := by
  simp only [copyOneFile]
  by_cases hd : existsF b.fs (upper ++ chars "/" ++ pyBasename df) = true
  · rw [if_pos hd]
    exact h
  · rw [if_neg hd]
    cases fileAt b.fs df with
    | none => exact existsF_setFile_mono _ _ h
    | some content => exact existsF_setFile_mono _ _ h

theorem copyOneFile_skip (c : CopyConf) (upper lf : Str) (b : Build) (df : Str)
    (h : existsF b.fs (upper ++ chars "/" ++ pyBasename df) = true) :
    copyOneFile c upper lf b df = b := by
  simp only [copyOneFile]
  rw [if_pos h]

theorem stageFold_exists_mono (c : CopyConf) (upper lf : Str) :
    ∀ (l : List Str) (b : Build) (p : Str), existsF b.fs p = true →
      existsF (l.foldl (copyOneFile c upper lf) b).fs p = true := by
  intro l
  induction l with
  | nil => intro b p h; exact h
  | cons df rest ih =>
    intro b p h
    exact ih _ p (copyOneFile_exists_mono c upper lf b df p h)

theorem stageFold_dest_exists (c : CopyConf) (upper lf : Str) :
    ∀ (l : List Str) (b : Build) (df : Str), df ∈ l →
      existsF (l.foldl (copyOneFile c upper lf) b).fs
        (upper ++ chars "/" ++ pyBasename df) = true := by
  intro l
  induction l with
  | nil => intro b df h; cases h
  | cons x rest ih =>
    intro b df h
    rcases List.mem_cons.mp h with h1 | h1
    · subst h1
      exact stageFold_exists_mono c upper lf rest _ _
        (copyDest_exists_after c upper lf b df)
    · exact ih _ df h1

theorem stageFold_noop (c : CopyConf) (upper lf : Str) :
    ∀ (l : List Str) (b : Build),
      (∀ df ∈ l, existsF b.fs (upper ++ chars "/" ++ pyBasename df) = true) →
      l.foldl (copyOneFile c upper lf) b = b := by
  intro l
  induction l with
  | nil => intro b _; rfl
  | cons df rest ih =>
    intro b h
    have hskip := copyOneFile_skip c upper lf b df (h df (List.mem_cons_self df rest))
    simp only [List.foldl_cons, hskip]
    exact ih b (fun x hx => h x (List.mem_cons.mpr (Or.inr hx)))

/-- C8: stager idempotence. After one run of `copy_data_locally`,
running it again with the same archive list is a perfect no-op: the
second run emits no events at all (in particular zero shell
invocations, so neither copy nor decompress runs for any archive) and
leaves the filesystem untouched, because every archive's destination
path `sibling-of(local_folder)/basename(archive)` already exists. -/
theorem C8_stager_second_run_is_noop (fs : FS) (c : CopyConf) :
    copy_data_locally (copy_data_locally fs c).fs c
      = ⟨(copy_data_locally fs c).fs, [], true⟩ := by
  unfold copy_data_locally
  set lf := c.local_folder ++ chars "/" with hlf
  set upper := pyDirname (pyDirname lf) with hupper
  set b0 : Build :=
    (if existsF fs c.local_folder then ⟨fs, [], true⟩
     else ⟨mkdirF fs c.local_folder, [Ev.mkdirE c.local_folder], true⟩) with hb0
  have hloc0 : existsF b0.fs c.local_folder = true := by
    by_cases h : existsF fs c.local_folder = true
    · simp [hb0, h]
    · simp only [hb0, h, Bool.false_eq_true, if_false]
      exact existsF_mkdirF_self fs c.local_folder
  set r1 : Build := c.data_file.foldl (copyOneFile c upper lf) b0 with hr1
  have hloc1 : existsF r1.fs c.local_folder = true :=
    stageFold_exists_mono c upper lf c.data_file b0 c.local_folder hloc0
  have hstep : (if existsF r1.fs c.local_folder then (⟨r1.fs, [], true⟩ : Build)
      else ⟨mkdirF r1.fs c.local_folder, [Ev.mkdirE c.local_folder], true⟩)
      = ⟨r1.fs, [], true⟩ := by
    simp [hloc1]
  rw [hstep]
  exact stageFold_noop c upper lf c.data_file ⟨r1.fs, [], true⟩
    (fun df hdf => stageFold_dest_exists c upper lf c.data_file b0 df hdf)

theorem pySplitC_of_not_mem (sep : Char) (s : Str) (h : sep ∉ s) :
    pySplitC sep s = [s] := by
  induction s with
  | nil => rfl
  | cons c rest ih =>
    have hcs : (c == sep) = false := by
      simp only [beq_eq_false_iff_ne, ne_eq]
      intro hcon
      exact h (hcon ▸ List.mem_cons_self c rest)
    have hrest : sep ∉ rest := fun hm => h (List.mem_cons.mpr (Or.inr hm))
    simp only [pySplitC, hcs, Bool.false_eq_true, if_false, ih hrest]

theorem pySplitC_append_sep (sep : Char) (x y : Str) (hx : sep ∉ x) :
    pySplitC sep (x ++ sep :: y) = x :: pySplitC sep y := by
  induction x with
  | nil => simp [pySplitC]
  | cons c rest ih =>
    have hcs : (c == sep) = false := by
      simp only [beq_eq_false_iff_ne, ne_eq]
      intro hcon
      exact hx (hcon ▸ List.mem_cons_self c rest)
    have hrest : sep ∉ rest := fun hm => hx (List.mem_cons.mpr (Or.inr hm))
    simp only [List.cons_append, pySplitC, hcs, Bool.false_eq_true, if_false,
      List.append_eq, ih hrest]

/-- C10 (amended): the copy command string is built as
`copy_cmd + " " + copy_opts + data_file + " " + dest_file` with no
separator between the options and the source path; consequently, for
space-free command parts, the shell sees exactly three tokens — the
command name, the fusion `copy_opts ++ data_file` of the option string
with the archive path, and the destination. With the empty-string
default `copy_opts` the middle token degenerates to the bare source
path (a separate argument); with any non-empty space-free `copy_opts`
the option flags and the archive path are fused into one token. -/
theorem C10_copy_cmd_fuses_opts_with_source
    (copy_cmd copy_opts data_file dest_file : Str)
    (hc : ' ' ∉ copy_cmd) (ho : ' ' ∉ copy_opts) (hd : ' ' ∉ data_file)
    (he : ' ' ∉ dest_file) (hcne : copy_cmd ≠ []) (hdne : data_file ≠ [])
    (hene : dest_file ≠ []) :
    mkCopyCmd copy_cmd copy_opts data_file dest_file
        = copy_cmd ++ chars " " ++ copy_opts ++ data_file ++ chars " "
          ++ dest_file
      ∧ shellSplit (mkCopyCmd copy_cmd copy_opts data_file dest_file)
        = [copy_cmd, copy_opts ++ data_file, dest_file] := by
  constructor
  · rfl
  · have hshape : mkCopyCmd copy_cmd copy_opts data_file dest_file
        = copy_cmd ++ ' ' :: ((copy_opts ++ data_file) ++ ' ' :: dest_file) := by
      simp only [mkCopyCmd, chars, List.append_assoc]
      rfl
    rw [hshape]
    unfold shellSplit
    have hod : ' ' ∉ copy_opts ++ data_file := by
      intro hm
      rcases List.mem_append.mp hm with hm | hm
      · exact ho hm
      · exact hd hm
    rw [pySplitC_append_sep ' ' copy_cmd _ hc,
      pySplitC_append_sep ' ' (copy_opts ++ data_file) _ hod,
      pySplitC_of_not_mem ' ' dest_file he]
    have h1 : copy_cmd.isEmpty = false := by
      simpa [List.isEmpty_iff] using hcne
    have h2 : (copy_opts ++ data_file).isEmpty = false := by
      simp [List.isEmpty_iff, hdne]
    have h3 : dest_file.isEmpty = false := by
      simpa [List.isEmpty_iff] using hene
    simp [List.filter, h1, h2, h3]

/-- C10 witness: a concrete space-free configuration, showing the fused
middle token. -/
theorem C10_copy_cmd_fuses_opts_with_source_witness :
    shellSplit (mkCopyCmd (chars "rsync") (chars "-a") (chars "/d/f")
        (chars "/l/f"))
      = [chars "rsync", chars "-a" ++ chars "/d/f", chars "/l/f"] :=
  (C10_copy_cmd_fuses_opts_with_source (chars "rsync") (chars "-a")
    (chars "/d/f") (chars "/l/f") (by decide) (by decide) (by decide)
    (by decide) (by decide) (by decide) (by decide)).2

theorem digitChar_ne_space (n : Nat) : digitChar n ≠ ' ' := by
  unfold digitChar
  split <;> decide

theorem mem_natDigsF {c : Char} : ∀ (f n : Nat), c ∈ natDigsF f n →
    ∃ k, c = digitChar k := by
  intro f
  induction f with
  | zero => intro n h; cases h
  | succ f ih =>
    intro n h
    by_cases hn : (n == 0) = true
    · simp [natDigsF, hn] at h
    · simp only [natDigsF, hn, Bool.false_eq_true, if_false] at h
      rcases List.mem_append.mp h with h1 | h1
      · exact ih _ h1
      · rcases List.mem_singleton.mp h1 with rfl
        exact ⟨n, rfl⟩

theorem natToStr_no_space (n : Nat) : ' ' ∉ natToStr n := by
  intro h
  by_cases hn : (n == 0) = true
  · simp [natToStr, hn, chars] at h
  · simp only [natToStr, hn, Bool.false_eq_true, if_false] at h
    rcases mem_natDigsF _ _ h with ⟨k, hk⟩
    exact digitChar_ne_space k hk.symm

theorem durStr_no_space (samples : Nat) : ' ' ∉ durStr samples := by
  intro h
  unfold durStr at h
  rcases List.mem_append.mp h with h1 | h1
  · exact natToStr_no_space samples h1
  · rcases List.mem_cons.mp h1 with h2 | h2
    · cases h2
    · exact natToStr_no_space 16000 h2

theorem mem_pySplitC_no_sep (sep : Char) :
    ∀ (s p : Str), p ∈ pySplitC sep s → sep ∉ p := by
  intro s
  induction s with
  | nil =>
    intro p hp
    rcases List.mem_singleton.mp hp with rfl
    exact List.not_mem_nil sep
  | cons c rest ih =>
    intro p hp
    by_cases hcs : (c == sep) = true
    · simp only [pySplitC, hcs, if_true] at hp
      rcases List.mem_cons.mp hp with rfl | h1
      · exact List.not_mem_nil sep
      · exact ih p h1
    · simp only [pySplitC, hcs, Bool.false_eq_true, if_false] at hp
      cases heq : pySplitC sep rest with
      | nil =>
        rw [heq] at hp
        rcases List.mem_singleton.mp hp with rfl
        intro hm
        rcases List.mem_singleton.mp hm with rfl
        simp at hcs
      | cons q qs =>
        rw [heq] at hp
        rcases List.mem_cons.mp hp with rfl | h1
        · intro hm
          rcases List.mem_cons.mp hm with rfl | h2
          · simp at hcs
          · exact ih q (heq ▸ List.mem_cons_self q qs) h2
        · exact ih p (heq ▸ List.mem_cons.mpr (Or.inr h1))

theorem mem_pySplitC_subset (sep : Char) :
    ∀ (s p : Str), p ∈ pySplitC sep s → ∀ c ∈ p, c ∈ s := by
  intro s
  induction s with
  | nil =>
    intro p hp
    rcases List.mem_singleton.mp hp with rfl
    intro c hc
    cases hc
  | cons a rest ih =>
    intro p hp
    by_cases hcs : (a == sep) = true
    · simp only [pySplitC, hcs, if_true] at hp
      rcases List.mem_cons.mp hp with rfl | h1
      · intro c hc; cases hc
      · intro c hc
        exact List.mem_cons.mpr (Or.inr (ih p h1 c hc))
    · simp only [pySplitC, hcs, Bool.false_eq_true, if_false] at hp
      cases heq : pySplitC sep rest with
      | nil =>
        rw [heq] at hp
        rcases List.mem_singleton.mp hp with rfl
        intro c hc
        rcases List.mem_singleton.mp hc with rfl
        exact List.mem_cons_self _ _
      | cons q qs =>
        rw [heq] at hp
        rcases List.mem_cons.mp hp with rfl | h1
        · intro c hc
          rcases List.mem_cons.mp hc with rfl | h2
          · exact List.mem_cons_self _ _
          · exact List.mem_cons.mpr
              (Or.inr (ih q (heq ▸ List.mem_cons_self q qs) c h2))
        · intro c hc
          exact List.mem_cons.mpr
            (Or.inr (ih p (heq ▸ List.mem_cons.mpr (Or.inr h1)) c hc))

theorem mem_joinSep (sep : Str) :
    ∀ (l : List Str) (c : Char), c ∈ joinSep sep l →
      c ∈ sep ∨ ∃ p ∈ l, c ∈ p := by
  intro l
  induction l with
  | nil => intro c h; cases h
  | cons p rest ih =>
    intro c h
    cases rest with
    | nil =>
      right
      exact ⟨p, List.mem_singleton_self p, h⟩
    | cons q rest2 =>
      simp only [joinSep] at h
      rcases List.mem_append.mp h with h1 | h1
      · rcases List.mem_append.mp h1 with h2 | h2
        · right
          exact ⟨p, List.mem_cons_self _ _, h2⟩
        · left
          exact h2
      · rcases ih c h1 with h2 | ⟨x, hx, hcx⟩
        · left
          exact h2
        · right
          exact ⟨x, List.mem_cons.mpr (Or.inr hx), hcx⟩

theorem mem_replaceAllF {c : Char} :
    ∀ (fuel : Nat) (s old new : Str), c ∈ replaceAllF fuel s old new →
      c ∈ s ∨ c ∈ new := by
  intro fuel
  induction fuel with
  | zero => intro s old new h; exact Or.inl h
  | succ fuel ih =>
    intro s old new h
    cases s with
    | nil => cases h
    | cons a rest =>
      by_cases hl : leadsWith old (a :: rest) = true
      · simp only [replaceAllF, hl, if_true] at h
        rcases List.mem_append.mp h with h1 | h1
        · exact Or.inr h1
        · rcases ih _ old new h1 with h2 | h2
          · exact Or.inl (List.drop_subset _ _ h2)
          · exact Or.inr h2
      · simp only [replaceAllF, hl, Bool.false_eq_true, if_false] at h
        rcases List.mem_cons.mp h with rfl | h1
        · exact Or.inl (List.mem_cons_self _ _)
        · rcases ih rest old new h1 with h2 | h2
          · exact Or.inl (List.mem_cons.mpr (Or.inr h2))
          · exact Or.inr h2

theorem mem_replaceAll {c : Char} {s old new : Str}
    (h : c ∈ replaceAll s old new) : c ∈ s ∨ c ∈ new :=
  mem_replaceAllF _ s old new h

theorem pyIdxNeg_mem {l : List Str} {k : Nat} {x : Str}
    (h : pyIdxNeg l k = some x) : x ∈ l := by
  unfold pyIdxNeg at h
  by_cases hk : k ≤ l.length
  · rw [if_pos hk] at h
    exact List.get?_mem h
  · rw [if_neg hk] at h
    cases h

theorem timitWrdSym_no_space {l w : Str} (h : timitWrdSym l = some w) :
    ' ' ∉ w :=
  mem_pySplitC_no_sep ' ' (rstripNl l) w (List.get?_mem h)

theorem timitPhnSym_no_space {l w : Str} (h : timitPhnSym l = some w) :
    ' ' ∉ w :=
  mem_pySplitC_no_sep ' ' _ w (List.get?_mem h)

theorem mapLines_no_space {f : Str → Option Str}
    (hf : ∀ l w, f l = some w → ' ' ∉ w) :
    ∀ (ls syms : List Str), mapLines f ls = some syms → ∀ w ∈ syms, ' ' ∉ w := by
  intro ls
  induction ls with
  | nil =>
    intro syms h w hw
    obtain rfl := Option.some_inj.mp h
    cases hw
  | cons a rest ih =>
    intro syms h w hw
    simp only [mapLines] at h
    cases hfa : f a with
    | none => rw [hfa] at h; cases h
    | some b =>
      rw [hfa] at h
      cases hrest : mapLines f rest with
      | none => rw [hrest] at h; cases h
      | some bs =>
        rw [hrest] at h
        obtain rfl : b :: bs = syms := Option.some_inj.mp h
        rcases List.mem_cons.mp hw with rfl | h1
        · exact hf a w hfa
        · exact ih bs hrest w h1

/-- A value that is one underscore-joined token of blank-free pieces. -/
def joinedClean (v : Str) : Prop :=
  ∃ pieces, v = joinSep (chars "_") pieces ∧ ∀ p ∈ pieces, ' ' ∉ p

theorem joinedClean_no_space {v : Str} (h : joinedClean v) : ' ' ∉ v := by
  rcases h with ⟨pieces, rfl, hp⟩
  intro hm
  rcases mem_joinSep _ pieces ' ' hm with h1 | ⟨p, hp1, hp2⟩
  · simp [chars] at h1
  · exact hp p hp1 hp2

theorem timitWrdSyms_joined {ls syms : List Str}
    (h : timitWrdSyms ls = some syms) :
    joinedClean (joinSep (chars "_") syms) :=
  ⟨syms, rfl, mapLines_no_space (fun _ _ => timitWrdSym_no_space) ls syms h⟩

theorem timitPhnSyms_joined {ls syms : List Str}
    (h : timitPhnSyms ls = some syms) :
    joinedClean (joinSep (chars "_") syms) :=
  ⟨syms, rfl, mapLines_no_space (fun _ _ => timitPhnSym_no_space) ls syms h⟩

theorem timitIds_no_space {w spk snt : Str} (hw : ' ' ∉ w)
    (h : timitIds w = some (spk, snt)) : ' ' ∉ spk ∧ ' ' ∉ snt := by
  simp only [timitIds] at h
  cases h2 : pyIdxNeg (pySplitC '/' w) 2 with
  | none => rw [h2] at h; cases h
  | some s2 =>
    cases h1 : pyIdxNeg (pySplitC '/' w) 1 with
    | none => rw [h2, h1] at h; cases h
    | some s1 =>
      rw [h2, h1] at h
      rcases Option.some_inj.mp h with ⟨rfl, rfl⟩
      have hs2 : ' ' ∉ spk := fun hm =>
        hw (mem_pySplitC_subset '/' w spk (pyIdxNeg_mem h2) ' ' hm)
      have hs1 : ' ' ∉ s1 := fun hm =>
        hw (mem_pySplitC_subset '/' w s1 (pyIdxNeg_mem h1) ' ' hm)
      refine ⟨hs2, ?_⟩
      intro hm
      rcases List.mem_append.mp hm with h3 | h3
      · rcases List.mem_append.mp h3 with h4 | h4
        · exact hs2 h4
        · simp [chars] at h4
      · rcases mem_replaceAll h3 with h4 | h4
        · exact hs1 h4
        · simp [chars] at h4

/-- Cleanliness of one TIMIT record: the phoneme and word fields are
underscore-joined tokens of blank-free pieces, and no payload of the
rendered line contains a blank. -/
def cleanRec (r : TimitRecord) : Prop :=
  joinedClean r.phn ∧ joinedClean r.wrd ∧ ∀ pay ∈ recPayloads r, ' ' ∉ pay

theorem cleanRec_build {sntId wav spkId phn wrd : Str} {dur : Nat}
    {lp : Option Str} (hsnt : ' ' ∉ sntId) (hwav : ' ' ∉ wav)
    (hspk : ' ' ∉ spkId) (hphn : joinedClean phn) (hwrd : joinedClean wrd)
    (hlp : ∀ p, lp = some p → ' ' ∉ p) :
    cleanRec ⟨sntId, dur, wav, spkId, phn, wrd, lp⟩ := by
  refine ⟨hphn, hwrd, ?_⟩
  intro pay hpay
  simp only [recPayloads] at hpay
  rcases List.mem_append.mp hpay with h1 | h1
  · rcases List.mem_cons.mp h1 with rfl | h2
    · exact hsnt
    rcases List.mem_cons.mp h2 with rfl | h3
    · exact durStr_no_space dur
    rcases List.mem_cons.mp h3 with rfl | h4
    · exact hwav
    rcases List.mem_cons.mp h4 with rfl | h5
    · exact hspk
    rcases List.mem_cons.mp h5 with rfl | h6
    · intro hm
      rcases mem_replaceAll hm with hx | hx
      · exact joinedClean_no_space hphn hx
      · simp [chars] at hx
    rcases List.mem_singleton.mp h6 with rfl
    · intro hm
      rcases mem_replaceAll hm with hx | hx
      · exact joinedClean_no_space hwrd hx
      · simp [chars] at hx
  · cases hl : lp with
    | none => rw [hl] at h1; cases h1
    | some p =>
      rw [hl] at h1
      rcases List.mem_singleton.mp h1 with rfl
      exact hlp pay hl

/-- Invariant of the create-scp loop state used for the serialization
claim: every accumulated record is clean and the bound label path is
blank-free. -/
def cleanSt (st : ScpSt) : Prop :=
  (∀ r ∈ st.recs, cleanRec r) ∧ ∀ p, st.sntLabPath = some p → ' ' ∉ p

theorem cleanSt_mk {st : ScpSt} (h : cleanSt st) (fs' : FS) (tr : List Ev)
    (cnt : Nat) (ml : Bool) :
    cleanSt ⟨fs', tr, cnt, ml, st.sntLabPath, st.recs⟩ :=
  ⟨h.1, h.2⟩

theorem cleanSt_setLab {st : ScpSt} (h : cleanSt st) {p : Str} (hp : ' ' ∉ p)
    (fs' : FS) (tr : List Ev) (cnt : Nat) (ml : Bool) :
    cleanSt ⟨fs', tr, cnt, ml, some p, st.recs⟩ := by
  refine ⟨h.1, ?_⟩
  intro q hq
  obtain rfl := Option.some_inj.mp hq
  exact hp

theorem cleanSt_addRec {st : ScpSt} (h : cleanSt st) {r : TimitRecord}
    (hr : cleanRec r) (fs' : FS) (tr : List Ev) (cnt : Nat) (ml : Bool) :
    cleanSt ⟨fs', tr, cnt, ml, st.sntLabPath, st.recs ++ [r]⟩ := by
  refine ⟨?_, h.2⟩
  intro x hx
  rcases List.mem_append.mp hx with h1 | h1
  · exact h.1 x h1
  · rcases List.mem_singleton.mp h1 with rfl
    exact hr

theorem cleanSt_addRec2 {recs : List TimitRecord} (h : ∀ r ∈ recs, cleanRec r)
    {r : TimitRecord} (hr : cleanRec r) {lp : Option Str}
    (hlp : ∀ p, lp = some p → ' ' ∉ p) (fs' : FS) (tr : List Ev) (cnt : Nat)
    (ml : Bool) : cleanSt ⟨fs', tr, cnt, ml, lp, recs ++ [r]⟩ := by
  refine ⟨?_, hlp⟩
  intro x hx
  rcases List.mem_append.mp hx with h1 | h1
  · exact h x h1
  · rcases List.mem_singleton.mp h1 with rfl
    exact hr

theorem labPath_no_space {lod snt : Str} (hlod : ' ' ∉ lod) (hsnt : ' ' ∉ snt) :
    ' ' ∉ lod ++ chars "/" ++ snt ++ chars ".pkl" := by
  intro hm
  rcases List.mem_append.mp hm with h1 | h1
  · rcases List.mem_append.mp h1 with h2 | h2
    · rcases List.mem_append.mp h2 with h3 | h3
      · exact hlod h3
      · simp [chars] at h3
    · exact hsnt h2
  · simp [chars] at h1

theorem labStage_clean (k : Option Str) (lab : List (Str × Nat)) {lod : Str}
    (n : Nat) {st : ScpSt} {snt : Str} (hlod : ' ' ∉ lod) (hsnt : ' ' ∉ snt)
    (h : cleanSt st) : cleanSt (labStage k lab lod n st snt) := by
  unfold labStage
  cases k with
  | none => exact h
  | some d =>
    dsimp only
    by_cases hmiss : (!(labHas lab snt)) = true
    · rw [if_pos hmiss]
      split
      · exact cleanSt_mk h _ _ _ _
      · exact cleanSt_mk h _ _ _ _
    · rw [if_neg hmiss]
      split
      · exact cleanSt_setLab h (labPath_no_space hlod hsnt) _ _ _ _
      · exact cleanSt_setLab h (labPath_no_space hlod hsnt) _ _ _ _

theorem warnIfDirMissing_clean {st : ScpSt} {f : Str} {mk : Str → LogEv}
    (h : cleanSt st) : cleanSt (warnIfDirMissing st f mk) := by
  unfold warnIfDirMissing
  split
  · exact cleanSt_mk h _ _ _ _
  · exact h

theorem warnIfDirMissing_recs (st : ScpSt) (f : Str) (mk : Str → LogEv) :
    (warnIfDirMissing st f mk).recs = st.recs := by
  unfold warnIfDirMissing
  split <;> rfl

theorem warnIfDirMissing_fs (st : ScpSt) (f : Str) (mk : Str → LogEv) :
    (warnIfDirMissing st f mk).fs = st.fs := by
  unfold warnIfDirMissing
  split <;> rfl

theorem warnIfDirMissing_sntLabPath (st : ScpSt) (f : Str) (mk : Str → LogEv) :
    (warnIfDirMissing st f mk).sntLabPath = st.sntLabPath := by
  unfold warnIfDirMissing
  split <;> rfl

theorem warnIfDirMissing_sntNoLab (st : ScpSt) (f : Str) (mk : Str → LogEv) :
    (warnIfDirMissing st f mk).sntNoLab = st.sntNoLab := by
  unfold warnIfDirMissing
  split <;> rfl

theorem warnIfDirMissing_missingLab (st : ScpSt) (f : Str) (mk : Str → LogEv) :
    (warnIfDirMissing st f mk).missingLab = st.missingLab := by
  unfold warnIfDirMissing
  split <;> rfl

theorem bodyStage_clean {k : Option Str} {st1 : ScpSt} {w spk snt : Str}
    (hw : ' ' ∉ w) (hspk : ' ' ∉ spk) (hsnt : ' ' ∉ snt) (h : cleanSt st1) :
    cleanSt (bodyStage k st1 w spk snt).1 := by
  unfold bodyStage
  cases read_wav_soundfile st1.fs w with
  | none => exact h
  | some nsamples =>
    dsimp only
    have h2 : cleanSt (warnIfDirMissing st1
        (replaceAll w (chars ".wav") (chars ".wrd")) LogEv.wrdMissingMsg) :=
      warnIfDirMissing_clean h
    cases hws : (readTextF (warnIfDirMissing st1
        (replaceAll w (chars ".wav") (chars ".wrd")) LogEv.wrdMissingMsg).fs
        (replaceAll w (chars ".wav") (chars ".wrd"))).bind timitWrdSyms with
    | none => exact h2
    | some wrdSyms =>
      dsimp only
      have h3 : cleanSt (warnIfDirMissing (warnIfDirMissing st1
          (replaceAll w (chars ".wav") (chars ".wrd")) LogEv.wrdMissingMsg)
          (replaceAll w (chars ".wav") (chars ".phn")) LogEv.phnMissingMsg) :=
        warnIfDirMissing_clean h2
      cases hps : (readTextF (warnIfDirMissing (warnIfDirMissing st1
          (replaceAll w (chars ".wav") (chars ".wrd")) LogEv.wrdMissingMsg)
          (replaceAll w (chars ".wav") (chars ".phn")) LogEv.phnMissingMsg).fs
          (replaceAll w (chars ".wav") (chars ".phn"))).bind timitPhnSyms with
      | none => exact h3
      | some phnSyms =>
        dsimp only
        obtain ⟨wls, _, hwsyms⟩ := Option.bind_eq_some.mp hws
        obtain ⟨pls, _, hpsyms⟩ := Option.bind_eq_some.mp hps
        have hphn := timitPhnSyms_joined hpsyms
        have hwrd := timitWrdSyms_joined hwsyms
        cases k with
        | none =>
          dsimp only
          exact cleanSt_addRec h3
            (cleanRec_build hsnt hw hspk hphn hwrd (fun p hp => by cases hp))
            _ _ _ _
        | some d =>
          dsimp only
          cases hlab : (warnIfDirMissing (warnIfDirMissing st1
              (replaceAll w (chars ".wav") (chars ".wrd")) LogEv.wrdMissingMsg)
              (replaceAll w (chars ".wav") (chars ".phn"))
              LogEv.phnMissingMsg).sntLabPath with
          | none => exact h3
          | some p =>
            dsimp only
            exact cleanSt_addRec2 h3.1
              (cleanRec_build hsnt hw hspk hphn hwrd
                (fun q hq => by
                  obtain rfl := Option.some_inj.mp hq
                  exact h3.2 _ hlab))
              (fun q hq => by
                obtain rfl := Option.some_inj.mp hq
                exact h3.2 _ hlab)
              _ _ _ _

theorem processWav_clean (k : Option Str) (lab : List (Str × Nat)) {lod : Str}
    (n : Nat) {st : ScpSt} {w : Str} (hlod : ' ' ∉ lod) (hw : ' ' ∉ w)
    (h : cleanSt st) : cleanSt (processWav k lab lod n st w).1 := by
  unfold processWav
  cases hids : timitIds w with
  | none => exact h
  | some pr =>
    obtain ⟨spk, snt⟩ := pr
    obtain ⟨hspk, hsnt⟩ := timitIds_no_space hw hids
    dsimp only
    have h1 := labStage_clean k lab n hlod hsnt h
    split
    · exact h1
    · exact bodyStage_clean hw hspk hsnt h1

theorem processList_clean (k : Option Str) (lab : List (Str × Nat)) {lod : Str}
    (n : Nat) (hlod : ' ' ∉ lod) :
    ∀ (ws : List Str) (st : ScpSt), (∀ w ∈ ws, ' ' ∉ w) → cleanSt st →
      cleanSt (processList k lab lod n ws st).1 := by
  intro ws
  induction ws with
  | nil => intro st _ h; exact h
  | cons w rest ih =>
    intro st hws h
    have hw : ' ' ∉ w := hws w (List.mem_cons_self _ _)
    have hrest : ∀ x ∈ rest, ' ' ∉ x :=
      fun x hx => hws x (List.mem_cons.mpr (Or.inr hx))
    unfold processList
    cases hpw : processWav k lab lod n st w with
    | mk st' okf =>
      have hst' : cleanSt st' := by
        have := processWav_clean k lab n hlod hw h
        rw [hpw] at this
        exact this
      cases okf with
      | true => exact ih st' hrest hst'
      | false => exact hst'

theorem processList_clean_eq {k : Option Str} {lab : List (Str × Nat)} {lod : Str}
    {n : Nat} (hlod : ' ' ∉ lod) {ws : List Str} {st out : ScpSt} {okf : Bool}
    (hws : ∀ w ∈ ws, ' ' ∉ w) (hst : cleanSt st)
    (heq : processList k lab lod n ws st = (out, okf)) : cleanSt out := by
  have h := processList_clean k lab n hlod ws st hws hst
  rw [heq] at h
  exact h

theorem timit_create_scp_recs_clean (fs : FS) (sf : Str) (wl : List Str)
    (scp : Str) (k : Option Str) (hsf : ' ' ∉ sf) (hwl : ∀ w ∈ wl, ' ' ∉ w) :
    ∀ r ∈ (timit_create_scp fs sf wl scp k).2.recs, cleanRec r := by
  have hlod : ' ' ∉ sf ++ chars "/kaldi_labels" := by
    intro hm
    rcases List.mem_append.mp hm with h | h
    · exact hsf h
    · simp [chars] at h
  unfold timit_create_scp
  dsimp only
  split
  next st heq =>
    exact fun r hr => (processList_clean_eq hlod hwl
      ⟨fun r hr => absurd hr (List.not_mem_nil r), fun p hp => by cases hp⟩
      heq).1 r hr
  next st heq =>
    exact fun r hr => (processList_clean_eq hlod hwl
      ⟨fun r hr => absurd hr (List.not_mem_nil r), fun p hp => by cases hp⟩
      heq).1 r hr

theorem dictGet_dictUpd {d : List (Str × Str)} {k0 v0 k v : Str}
    (h : dictGet (dictUpd d k0 v0) k = some v) :
    v = v0 ∨ dictGet d k = some v := by
  unfold dictUpd at h
  by_cases hany : (d.any (fun e => e.1 == k0)) = true
  · rw [if_pos hany] at h
    clear hany
    induction d with
    | nil => cases h
    | cons a rest ih =>
      by_cases hak : (a.1 == k0) = true
      · simp only [List.map_cons, hak, if_true] at h
        by_cases hkk : (k0 == k) = true
        · unfold dictGet at h
          rw [@List.find?_cons_of_pos _ (fun e => e.1 == k) ((k0, v0)) _ hkk]
            at h
          left
          exact (Option.some_inj.mp h).symm
        · unfold dictGet at h ⊢
          rw [@List.find?_cons_of_neg _ (fun e => e.1 == k) ((k0, v0)) _
            (by simp [hkk])] at h
          rw [@List.find?_cons_of_neg _ (fun e => e.1 == k) a _
            (by simp only [beq_eq_false_iff_ne, ne_eq]
                intro hcon
                rw [beq_iff_eq] at hak
                rw [hak] at hcon
                simp [hcon] at hkk)]
          rcases ih h with h1 | h1
          · exact Or.inl h1
          · exact Or.inr h1
      · simp only [List.map_cons, hak, Bool.false_eq_true, if_false] at h
        by_cases hakk : (a.1 == k) = true
        · unfold dictGet at h ⊢
          rw [@List.find?_cons_of_pos _ (fun e => e.1 == k) a _ hakk] at h ⊢
          exact Or.inr h
        · unfold dictGet at h ⊢
          rw [@List.find?_cons_of_neg _ (fun e => e.1 == k) a _
            (by simp [hakk])] at h ⊢
          rcases ih h with h1 | h1
          · exact Or.inl h1
          · exact Or.inr h1
  · rw [if_neg hany] at h
    unfold dictGet at h ⊢
    rw [List.find?_append] at h
    cases hfind : List.find? (fun e => e.1 == k) d with
    | some e =>
      rw [hfind] at h
      exact Or.inr h
    | none =>
      rw [hfind] at h
      simp only [Option.none_or] at h
      by_cases hkk : (k0 == k) = true
      · rw [@List.find?_cons_of_pos _ (fun e => e.1 == k) ((k0, v0)) _ hkk] at h
        left
        exact (Option.some_inj.mp h).symm
      · rw [@List.find?_cons_of_neg _ (fun e => e.1 == k) ((k0, v0)) _
          (by simp [hkk])] at h
        cases h

theorem textLineUpd_values {d : List (Str × Str)}
    (hd : ∀ k v, dictGet d k = some v → joinedClean v) (line : Str) :
    ∀ k v, dictGet (textLineUpd d line) k = some v → joinedClean v := by
  intro k v h
  unfold textLineUpd at h
  rcases dictGet_dictUpd h with h1 | h1
  · subst h1
    refine ⟨(pySplitC ' ' (pyStrip line)).drop 1, rfl, ?_⟩
    intro p hp
    exact mem_pySplitC_no_sep ' ' (pyStrip line) p (List.drop_subset 1 _ hp)
  · exact hd k v h1

theorem textLinesToDict_values {d : List (Str × Str)}
    (hd : ∀ k v, dictGet d k = some v → joinedClean v) :
    ∀ (ls : List Str) (k v : Str),
      dictGet (textLinesToDict d ls) k = some v → joinedClean v := by
  intro ls
  induction ls generalizing d with
  | nil => exact hd
  | cons line rest ih =>
    intro k v h
    unfold textLinesToDict at h
    exact ih (textLineUpd_values hd line) k v h

theorem text_to_dict_values (fs : FS) :
    ∀ (tl : List Str) (d0 d : List (Str × Str)),
      (∀ k v, dictGet d0 k = some v → joinedClean v) →
      text_to_dict fs tl d0 = some d →
      ∀ k v, dictGet d k = some v → joinedClean v := by
  intro tl
  induction tl with
  | nil =>
    intro d0 d hd0 h
    unfold text_to_dict at h
    obtain rfl := Option.some_inj.mp h
    exact hd0
  | cons f rest ih =>
    intro d0 d hd0 h
    unfold text_to_dict at h
    cases hr : readTextF fs f with
    | none => rw [hr] at h; cases h
    | some ls =>
      rw [hr] at h
      exact ih (textLinesToDict d0 ls) d (textLinesToDict_values hd0 ls) h

theorem pySplitC_ne_nil (sep : Char) (s : Str) : pySplitC sep s ≠ [] := by
  cases s with
  | nil => simp [pySplitC]
  | cons c rest =>
    by_cases hcs : (c == sep) = true
    · simp [pySplitC, hcs]
    · simp only [pySplitC, hcs, Bool.false_eq_true, if_false]
      cases pySplitC sep rest with
      | nil => simp
      | cons p ps => simp

theorem getLastD_mem_of_ne_nil {l : List Str} (h : l ≠ []) (d : Str) :
    l.getLastD d ∈ l := by
  cases l with
  | nil => exact absurd rfl h
  | cons a rest =>
    rw [List.getLastD_cons]
    exact List.getLastD_mem_cons _ _

theorem libriIds_no_space {w : Str} (hw : ' ' ∉ w) :
    ' ' ∉ replaceAll ((pySplitC '/' w).getLastD []) (chars ".flac") (chars "")
      ∧ ' ' ∉ joinSep (chars "-")
          ((pySplitC '-' (replaceAll ((pySplitC '/' w).getLastD [])
            (chars ".flac") (chars ""))).take 2) := by
  have hlast : ' ' ∉ (pySplitC '/' w).getLastD [] := by
    intro hm
    exact hw (mem_pySplitC_subset '/' w _
      (getLastD_mem_of_ne_nil (pySplitC_ne_nil '/' w) []) ' ' hm)
  have hsnt : ' ' ∉ replaceAll ((pySplitC '/' w).getLastD [])
      (chars ".flac") (chars "") := by
    intro hm
    rcases mem_replaceAll hm with h1 | h1
    · exact hlast h1
    · cases h1
  refine ⟨hsnt, ?_⟩
  intro hm
  rcases mem_joinSep _ _ ' ' hm with h1 | ⟨p, hp, hcp⟩
  · simp [chars] at h1
  · exact hsnt (mem_pySplitC_subset '-' _ p (List.take_subset 2 _ hp) ' ' hcp)

theorem recPayloadsL_clean {sntId wav spkId wrd : Str} {dur : Nat}
    (hsnt : ' ' ∉ sntId) (hwav : ' ' ∉ wav) (hspk : ' ' ∉ spkId)
    (hwrd : ' ' ∉ wrd) :
    ∀ pay ∈ recPayloadsL ⟨sntId, dur, wav, spkId, wrd⟩, ' ' ∉ pay := by
  intro pay hpay
  simp only [recPayloadsL] at hpay
  rcases List.mem_cons.mp hpay with rfl | h1
  · exact hsnt
  rcases List.mem_cons.mp h1 with rfl | h2
  · exact durStr_no_space dur
  rcases List.mem_cons.mp h2 with rfl | h3
  · exact hwav
  rcases List.mem_cons.mp h3 with rfl | h4
  · exact hspk
  rcases List.mem_singleton.mp h4 with rfl
  exact hwrd

theorem libriLoop_clean (fs : FS) (dict : List (Str × Str)) (seln : Nat)
    (hd : ∀ k v, dictGet dict k = some v → ' ' ∉ v) :
    ∀ (ws : List Str) (cnt : Nat) (recs : List LibriRecord),
      (∀ w ∈ ws, ' ' ∉ w) →
      (∀ r ∈ recs, ∀ pay ∈ recPayloadsL r, ' ' ∉ pay) →
      ∀ r ∈ (libriLoop fs dict seln ws cnt recs).1,
        ∀ pay ∈ recPayloadsL r, ' ' ∉ pay := by
  intro ws
  induction ws with
  | nil => intro cnt recs _ hrecs; exact hrecs
  | cons w rest ih =>
    intro cnt recs hws hrecs
    have hw : ' ' ∉ w := hws w (List.mem_cons_self _ _)
    have hrest : ∀ x ∈ rest, ' ' ∉ x :=
      fun x hx => hws x (List.mem_cons.mpr (Or.inr hx))
    obtain ⟨hsnt, hspk⟩ := libriIds_no_space hw
    unfold libriLoop
    dsimp only
    cases hwrd : dictGet dict
        (replaceAll ((pySplitC '/' w).getLastD []) (chars ".flac") (chars ""))
        with
    | none => exact hrecs
    | some wrd =>
      cases read_wav_soundfile fs w with
      | none => exact hrecs
      | some nsamples =>
        dsimp only
        have hnew : ∀ r ∈ recs
            ++ [(⟨replaceAll ((pySplitC '/' w).getLastD []) (chars ".flac")
                    (chars ""),
                  nsamples, w,
                  joinSep (chars "-") ((pySplitC '-'
                    (replaceAll ((pySplitC '/' w).getLastD []) (chars ".flac")
                      (chars ""))).take 2),
                  wrd⟩ : LibriRecord)],
            ∀ pay ∈ recPayloadsL r, ' ' ∉ pay := by
          intro r hr
          rcases List.mem_append.mp hr with h1 | h1
          · exact hrecs r h1
          · rcases List.mem_singleton.mp h1 with rfl
            exact recPayloadsL_clean hsnt hw hspk (hd _ _ hwrd)
        split
        · exact hnew
        · exact ih (cnt + 1) _ hrest hnew

/-- C9: serialization of multi-token textual fields. (i) Every record
emitted by the TIMIT builder has a phoneme field and a word field that
are each one underscore-joined token of blank-free symbols, and no
payload of its manifest line contains a raw space (given blank-free wav
paths and save folder). (ii) Every transcript value produced by
`librispeech_prepare.text_to_dict` is one underscore-joined token of
blank-free pieces. (iii) Every record emitted by the LibriSpeech
builder has blank-free payloads. (iv) The TIMIT phoneme relabeling maps
the edge-silence symbol `h#` to `sil` before joining. -/
theorem C9_fields_underscore_joined_without_spaces :
    (∀ (fs : FS) (sf scp : Str) (k : Option Str) (wl : List Str),
        ' ' ∉ sf → (∀ w ∈ wl, ' ' ∉ w) →
        ∀ r ∈ (timit_create_scp fs sf wl scp k).2.recs,
          joinedClean r.phn ∧ joinedClean r.wrd
            ∧ ∀ pay ∈ recPayloads r, ' ' ∉ pay)
      ∧ (∀ (fs : FS) (tl : List Str) (d : List (Str × Str)),
          text_to_dict fs tl [] = some d →
          ∀ k v, dictGet d k = some v → joinedClean v)
      ∧ (∀ (fs : FS) (c : LibriConf) (dict : List (Str × Str)) (wl : List Str)
            (split : Str) (seln : Nat),
          (∀ k v, dictGet dict k = some v → ' ' ∉ v) → (∀ w ∈ wl, ' ' ∉ w) →
          ∀ r ∈ (librispeech_create_scp fs c dict wl split seln).2,
            ∀ pay ∈ recPayloadsL r, ' ' ∉ pay)
      ∧ timitPhnSym (chars "0 5 h#") = some (chars "sil") := by
  refine ⟨?_, ?_, ?_, by decide⟩
  · intro fs sf scp k wl hsf hwl r hr
    exact timit_create_scp_recs_clean fs sf wl scp k hsf hwl r hr
  · intro fs tl d h k v hv
    refine text_to_dict_values fs tl [] d ?_ h k v hv
    intro k v hkv
    simp [dictGet] at hkv
  · intro fs c dict wl split seln hd hwl r hr
    have hall := libriLoop_clean fs dict seln hd wl 0 [] hwl
      (fun r hr => absurd hr (List.not_mem_nil r))
    unfold librispeech_create_scp at hr
    dsimp only at hr
    revert hr
    split
    next recs heq =>
      rw [heq] at hall
      exact fun hr => hall r hr
    next recs heq =>
      rw [heq] at hall
      exact fun hr => hall r hr

theorem warnIfDirMissing_trace (st : ScpSt) (f : Str) (mk : Str → LogEv) :
    ∃ tail, (warnIfDirMissing st f mk).trace = st.trace ++ tail
      ∧ ∀ e ∈ tail, e = Ev.logE (mk f) := by
  unfold warnIfDirMissing
  split
  · refine ⟨[Ev.logE (mk f)], rfl, ?_⟩
    intro e he
    rcases List.mem_singleton.mp he with rfl
    rfl
  · refine ⟨[], by simp, ?_⟩
    intro e he
    cases he

/-- The record-building stage never touches the missing-label counter or
flag, and only appends non-threshold log events to the trace. -/
theorem bodyStage_inv (k : Option Str) (st1 : ScpSt) (w spk snt : Str) :
    (bodyStage k st1 w spk snt).1.sntNoLab = st1.sntNoLab
    ∧ (bodyStage k st1 w spk snt).1.missingLab = st1.missingLab
    ∧ ∃ tail, (bodyStage k st1 w spk snt).1.trace = st1.trace ++ tail
        ∧ ∀ e ∈ tail, ∃ m, e = Ev.logE m ∧ m ≠ LogEv.thresholdMsg := by
  unfold bodyStage
  cases read_wav_soundfile st1.fs w with
  | none =>
    refine ⟨rfl, rfl, [], by simp, ?_⟩
    intro e he
    cases he
  | some nsamples =>
    dsimp only
    obtain ⟨t2, ht2, ht2all⟩ := warnIfDirMissing_trace st1
      (replaceAll w (chars ".wav") (chars ".wrd")) LogEv.wrdMissingMsg
    have h2cnt := warnIfDirMissing_sntNoLab st1
      (replaceAll w (chars ".wav") (chars ".wrd")) LogEv.wrdMissingMsg
    have h2ml := warnIfDirMissing_missingLab st1
      (replaceAll w (chars ".wav") (chars ".wrd")) LogEv.wrdMissingMsg
    have ht2ne : ∀ e ∈ t2, ∃ m, e = Ev.logE m ∧ m ≠ LogEv.thresholdMsg := by
      intro e he
      refine ⟨LogEv.wrdMissingMsg (replaceAll w (chars ".wav") (chars ".wrd")),
        ht2all e he, ?_⟩
      intro hcon
      cases hcon
    cases (readTextF (warnIfDirMissing st1
        (replaceAll w (chars ".wav") (chars ".wrd")) LogEv.wrdMissingMsg).fs
        (replaceAll w (chars ".wav") (chars ".wrd"))).bind timitWrdSyms with
    | none => exact ⟨h2cnt, h2ml, t2, ht2, ht2ne⟩
    | some wrdSyms =>
      dsimp only
      obtain ⟨t3, ht3, ht3all⟩ := warnIfDirMissing_trace (warnIfDirMissing st1
        (replaceAll w (chars ".wav") (chars ".wrd")) LogEv.wrdMissingMsg)
        (replaceAll w (chars ".wav") (chars ".phn")) LogEv.phnMissingMsg
      have h3cnt := warnIfDirMissing_sntNoLab (warnIfDirMissing st1
        (replaceAll w (chars ".wav") (chars ".wrd")) LogEv.wrdMissingMsg)
        (replaceAll w (chars ".wav") (chars ".phn")) LogEv.phnMissingMsg
      have h3ml := warnIfDirMissing_missingLab (warnIfDirMissing st1
        (replaceAll w (chars ".wav") (chars ".wrd")) LogEv.wrdMissingMsg)
        (replaceAll w (chars ".wav") (chars ".phn")) LogEv.phnMissingMsg
      have ht3comb : (warnIfDirMissing (warnIfDirMissing st1
          (replaceAll w (chars ".wav") (chars ".wrd")) LogEv.wrdMissingMsg)
          (replaceAll w (chars ".wav") (chars ".phn"))
          LogEv.phnMissingMsg).trace = st1.trace ++ (t2 ++ t3) := by
        rw [ht3, ht2, List.append_assoc]
      have htailne : ∀ e ∈ t2 ++ t3,
          ∃ m, e = Ev.logE m ∧ m ≠ LogEv.thresholdMsg := by
        intro e he
        rcases List.mem_append.mp he with h1 | h1
        · exact ht2ne e h1
        · refine ⟨LogEv.phnMissingMsg (replaceAll w (chars ".wav") (chars ".phn")),
            ht3all e h1, ?_⟩
          intro hcon
          cases hcon
      have hcnt32 : (warnIfDirMissing (warnIfDirMissing st1
          (replaceAll w (chars ".wav") (chars ".wrd")) LogEv.wrdMissingMsg)
          (replaceAll w (chars ".wav") (chars ".phn"))
          LogEv.phnMissingMsg).sntNoLab = st1.sntNoLab := by
        rw [h3cnt, h2cnt]
      have hml32 : (warnIfDirMissing (warnIfDirMissing st1
          (replaceAll w (chars ".wav") (chars ".wrd")) LogEv.wrdMissingMsg)
          (replaceAll w (chars ".wav") (chars ".phn"))
          LogEv.phnMissingMsg).missingLab = st1.missingLab := by
        rw [h3ml, h2ml]
      cases (readTextF (warnIfDirMissing (warnIfDirMissing st1
          (replaceAll w (chars ".wav") (chars ".wrd")) LogEv.wrdMissingMsg)
          (replaceAll w (chars ".wav") (chars ".phn")) LogEv.phnMissingMsg).fs
          (replaceAll w (chars ".wav") (chars ".phn"))).bind timitPhnSyms with
      | none => exact ⟨hcnt32, hml32, t2 ++ t3, ht3comb, htailne⟩
      | some phnSyms =>
        dsimp only
        cases k with
        | none => exact ⟨hcnt32, hml32, t2 ++ t3, ht3comb, htailne⟩
        | some d =>
          cases (warnIfDirMissing (warnIfDirMissing st1
              (replaceAll w (chars ".wav") (chars ".wrd")) LogEv.wrdMissingMsg)
              (replaceAll w (chars ".wav") (chars ".phn"))
              LogEv.phnMissingMsg).sntLabPath with
          | none => exact ⟨hcnt32, hml32, t2 ++ t3, ht3comb, htailne⟩
          | some p => exact ⟨hcnt32, hml32, t2 ++ t3, ht3comb, htailne⟩

theorem labStage_threshold (d : Str) (lab : List (Str × Nat)) (lod : Str)
    (n : Nat) (st : ScpSt) (snt : Str) (hml : st.missingLab = false)
    (hinv : (Ev.logE LogEv.thresholdMsg ∈ st.trace) ↔ 20 * st.sntNoLab > n) :
    (labStage (some d) lab lod n st snt).missingLab = false
    ∧ ((Ev.logE LogEv.thresholdMsg ∈ (labStage (some d) lab lod n st snt).trace)
        ↔ 20 * (labStage (some d) lab lod n st snt).sntNoLab > n) := by
  have hnolab : (Ev.logE (LogEv.noLabMsg snt)) ≠ Ev.logE LogEv.thresholdMsg := by
    intro hcon
    cases hcon
  have hwpkl : ∀ p v, (Ev.wpkl p v) ≠ Ev.logE LogEv.thresholdMsg := by
    intro p v hcon
    cases hcon
  unfold labStage
  dsimp only
  by_cases hmiss : (!(labHas lab snt)) = true
  · rw [if_pos hmiss]
    dsimp only
    by_cases hth : 20 * (st.sntNoLab + 1) > n
    · rw [if_pos hth]
      refine ⟨rfl, ?_⟩
      refine iff_of_true ?_ hth
      refine List.mem_append.mpr (Or.inr ?_)
      exact List.mem_singleton_self _
    · rw [if_neg hth]
      refine ⟨rfl, ?_⟩
      refine iff_of_false ?_ hth
      intro hm
      rcases List.mem_append.mp hm with h1 | h1
      · have h20 : 20 * st.sntNoLab > n := hinv.mp h1
        exact hth (by omega)
      · rcases List.mem_singleton.mp h1 with h2
        exact hnolab h2.symm
  · rw [if_neg hmiss]
    dsimp only
    by_cases hth : 20 * st.sntNoLab > n
    · rw [if_pos hth]
      refine ⟨hml, ?_⟩
      refine iff_of_true ?_ hth
      refine List.mem_append.mpr (Or.inr ?_)
      exact List.mem_singleton_self _
    · rw [if_neg hth]
      refine ⟨hml, ?_⟩
      refine iff_of_false ?_ hth
      intro hm
      rcases List.mem_append.mp hm with h1 | h1
      · exact hth (hinv.mp h1)
      · rcases List.mem_singleton.mp h1 with h2
        exact hwpkl _ _ h2.symm

theorem processWav_threshold (d : Str) (lab : List (Str × Nat)) (lod : Str)
    (n : Nat) (st : ScpSt) (w : Str) (hml : st.missingLab = false)
    (hinv : (Ev.logE LogEv.thresholdMsg ∈ st.trace) ↔ 20 * st.sntNoLab > n) :
    (processWav (some d) lab lod n st w).1.missingLab = false
    ∧ ((Ev.logE LogEv.thresholdMsg
          ∈ (processWav (some d) lab lod n st w).1.trace)
        ↔ 20 * (processWav (some d) lab lod n st w).1.sntNoLab > n) := by
  unfold processWav
  cases timitIds w with
  | none => exact ⟨hml, hinv⟩
  | some pr =>
    obtain ⟨spk, snt⟩ := pr
    dsimp only
    obtain ⟨hml1, hinv1⟩ := labStage_threshold d lab lod n st snt hml hinv
    split
    · exact ⟨hml1, hinv1⟩
    · obtain ⟨hcnt, hmlb, tail, htr, hne⟩ :=
        bodyStage_inv (some d) (labStage (some d) lab lod n st snt) w spk snt
      refine ⟨by rw [hmlb]; exact hml1, ?_⟩
      rw [htr, hcnt]
      constructor
      · intro hm
        rcases List.mem_append.mp hm with h1 | h1
        · exact hinv1.mp h1
        · rcases hne _ h1 with ⟨m, hmeq, hmne⟩
          cases hmeq
          exact absurd rfl hmne
      · intro hgt
        exact List.mem_append.mpr (Or.inl (hinv1.mpr hgt))

theorem processList_threshold (d : Str) (lab : List (Str × Nat)) (lod : Str)
    (n : Nat) :
    ∀ (ws : List Str) (st : ScpSt), st.missingLab = false →
      ((Ev.logE LogEv.thresholdMsg ∈ st.trace) ↔ 20 * st.sntNoLab > n) →
      (processList (some d) lab lod n ws st).1.missingLab = false
      ∧ ((Ev.logE LogEv.thresholdMsg
            ∈ (processList (some d) lab lod n ws st).1.trace)
          ↔ 20 * (processList (some d) lab lod n ws st).1.sntNoLab > n) := by
  intro ws
  induction ws with
  | nil => intro st hml hinv; exact ⟨hml, hinv⟩
  | cons w rest ih =>
    intro st hml hinv
    unfold processList
    cases hpw : processWav (some d) lab lod n st w with
    | mk st' okf =>
      have h := processWav_threshold d lab lod n st w hml hinv
      rw [hpw] at h
      cases okf with
      | true => exact ih st' h.1 h.2
      | false => exact h

/-- A processed wav file whose derived id has no label in the store
(an underivable id counts as missing, though it in fact aborts). -/
def missWav (lab : List (Str × Nat)) (w : Str) : Bool :=
  match timitIds w with
  | some pr => !(labHas lab pr.2)
  | none => true

theorem labStage_cnt (d : Str) (lab : List (Str × Nat)) (lod : Str) (n : Nat)
    (st : ScpSt) (snt : Str) :
    (labStage (some d) lab lod n st snt).sntNoLab
      = st.sntNoLab + (if labHas lab snt then 0 else 1) := by
  unfold labStage
  dsimp only
  by_cases hmiss : (!(labHas lab snt)) = true
  · rw [if_pos hmiss]
    have hl : labHas lab snt = false := by simpa using hmiss
    rw [hl]
    dsimp only
    split <;> rfl
  · rw [if_neg hmiss]
    have hl : labHas lab snt = true := by simpa using hmiss
    rw [hl]
    dsimp only
    split <;> rfl

theorem processWav_cnt_ok (d : Str) (lab : List (Str × Nat)) (lod : Str)
    (n : Nat) (st : ScpSt) (w : Str) (st' : ScpSt)
    (h : processWav (some d) lab lod n st w = (st', true)) :
    st'.sntNoLab = st.sntNoLab + (if missWav lab w then 1 else 0) := by
  unfold processWav at h
  cases hids : timitIds w with
  | none =>
    rw [hids] at h
    cases h
  | some pr =>
    obtain ⟨spk, snt⟩ := pr
    rw [hids] at h
    dsimp only at h
    unfold missWav
    rw [hids]
    dsimp only
    have hcnt := labStage_cnt d lab lod n st snt
    by_cases hml : (labStage (some d) lab lod n st snt).missingLab = true
    · rw [if_pos hml] at h
      obtain rfl : labStage (some d) lab lod n st snt = st' :=
        congrArg Prod.fst h
      rw [hcnt]
      by_cases hl : labHas lab snt = true <;> simp [hl]
    · rw [if_neg hml] at h
      obtain ⟨hbcnt, _, _, _, _⟩ :=
        bodyStage_inv (some d) (labStage (some d) lab lod n st snt) w spk snt
      have hfst : (bodyStage (some d) (labStage (some d) lab lod n st snt)
          w spk snt).1 = st' := congrArg Prod.fst h
      rw [← hfst, hbcnt, hcnt]
      by_cases hl : labHas lab snt = true <;> simp [hl]

theorem processList_cnt_ok (d : Str) (lab : List (Str × Nat)) (lod : Str)
    (n : Nat) :
    ∀ (ws : List Str) (st out : ScpSt),
      processList (some d) lab lod n ws st = (out, true) →
      out.sntNoLab = st.sntNoLab + (ws.filter (missWav lab)).length := by
  intro ws
  induction ws with
  | nil =>
    intro st out h
    obtain rfl : st = out := congrArg Prod.fst h
    simp
  | cons w rest ih =>
    intro st out h
    unfold processList at h
    cases hpw : processWav (some d) lab lod n st w with
    | mk st' okf =>
      rw [hpw] at h
      cases okf with
      | false => cases h
      | true =>
        have h1 := processWav_cnt_ok d lab lod n st w st' hpw
        have h2 := ih st' out h
        rw [h2, h1]
        by_cases hm : missWav lab w = true
        · simp only [List.filter_cons, hm, if_true, List.length_cons]
          omega
        · have hm2 : missWav lab w = false := by simpa using hm
          simp only [List.filter_cons, hm2, Bool.false_eq_true, if_false]
          omega

/-- C3 (amended): the success boundary sits at `floor(0.05 * N)`, not
`ceil(0.05 * N)`: the fatal too-many-missing-labels message is emitted
iff the missing count `m` satisfies `m / N > 0.05` (exactly
`20 * m > N`), so a build with `ceil(0.05 * N)` missing labels already
triggers it whenever `0.05 * N` is not an integer; on completed runs
the counter equals the number of processed wav files whose id is
absent from the label store, and the breach is only logged — the run
still completes and writes the manifest (and, per C2, the missing
records are not excluded). -/
theorem C3_threshold_error_iff_floor_exceeded (fs : FS) (sf : Str)
    (wl : List Str) (scp : Str) (d : Str) :
    ((Ev.logE LogEv.thresholdMsg
        ∈ (timit_create_scp fs sf wl scp (some d)).1.trace)
      ↔ 20 * (timit_create_scp fs sf wl scp (some d)).2.sntNoLab > wl.length)
    ∧ ((timit_create_scp fs sf wl scp (some d)).1.ok = true →
        (timit_create_scp fs sf wl scp (some d)).2.sntNoLab
          = (wl.filter (missWav (read_kaldi_lab fs d))).length
        ∧ Ev.wtxt scp
            ((timit_create_scp fs sf wl scp (some d)).2.recs.map renderT)
          ∈ (timit_create_scp fs sf wl scp (some d)).1.trace) := by
  have hwtxtne : ∀ (p : Str) (ls : List Str),
      (Ev.wtxt p ls) ≠ Ev.logE LogEv.thresholdMsg := by
    intro p ls hcon
    cases hcon
  have hcreatedne : ∀ p : Str,
      (Ev.logE (LogEv.createdMsg p)) ≠ Ev.logE LogEv.thresholdMsg := by
    intro p hcon
    cases hcon
  unfold timit_create_scp
  dsimp only
  by_cases hex : existsF fs (sf ++ chars "/kaldi_labels") = true
  · rw [if_pos hex]
    dsimp only
    have hinv0 : (Ev.logE LogEv.thresholdMsg
        ∈ [Ev.logE (LogEv.creatingMsg scp)]) ↔ 20 * (0 : Nat) > wl.length := by
      refine iff_of_false ?_ (by omega)
      intro hm
      rcases List.mem_singleton.mp hm with h1
      cases h1
    split
    next st heq =>
      have hth := processList_threshold d (read_kaldi_lab fs d)
        (sf ++ chars "/kaldi_labels") wl.length wl
        ⟨fs, [Ev.logE (LogEv.creatingMsg scp)], 0, false, none, []⟩ rfl hinv0
      rw [heq] at hth
      have hcnt := processList_cnt_ok d (read_kaldi_lab fs d)
        (sf ++ chars "/kaldi_labels") wl.length wl
        ⟨fs, [Ev.logE (LogEv.creatingMsg scp)], 0, false, none, []⟩ st heq
      refine ⟨?_, ?_⟩
      · constructor
        · intro hm
          rcases List.mem_append.mp hm with h1 | h1
          · exact hth.2.mp h1
          · rcases List.mem_cons.mp h1 with h2 | h2
            · exact absurd h2.symm (hwtxtne _ _)
            · rcases List.mem_singleton.mp h2 with h3
              exact absurd h3.symm (hcreatedne _)
        · intro hgt
          exact List.mem_append.mpr (Or.inl (hth.2.mpr hgt))
      · intro _
        refine ⟨by dsimp only at hcnt ⊢; omega, ?_⟩
        refine List.mem_append.mpr (Or.inr ?_)
        exact List.mem_cons_self _ _
    next st heq =>
      have hth := processList_threshold d (read_kaldi_lab fs d)
        (sf ++ chars "/kaldi_labels") wl.length wl
        ⟨fs, [Ev.logE (LogEv.creatingMsg scp)], 0, false, none, []⟩ rfl hinv0
      rw [heq] at hth
      refine ⟨hth.2, ?_⟩
      intro hcon
      cases hcon
  · rw [if_neg hex]
    dsimp only
    have hinv0 : (Ev.logE LogEv.thresholdMsg
        ∈ [Ev.logE (LogEv.creatingMsg scp)]
          ++ [Ev.mkdirE (sf ++ chars "/kaldi_labels")])
        ↔ 20 * (0 : Nat) > wl.length := by
      refine iff_of_false ?_ (by omega)
      intro hm
      rcases List.mem_append.mp hm with h1 | h1
      · rcases List.mem_singleton.mp h1 with h2
        cases h2
      · rcases List.mem_singleton.mp h1 with h2
        cases h2
    split
    next st heq =>
      have hth := processList_threshold d (read_kaldi_lab fs d)
        (sf ++ chars "/kaldi_labels") wl.length wl
        ⟨mkdirF fs (sf ++ chars "/kaldi_labels"),
          [Ev.logE (LogEv.creatingMsg scp)]
            ++ [Ev.mkdirE (sf ++ chars "/kaldi_labels")], 0, false, none, []⟩
        rfl hinv0
      rw [heq] at hth
      have hcnt := processList_cnt_ok d (read_kaldi_lab fs d)
        (sf ++ chars "/kaldi_labels") wl.length wl
        ⟨mkdirF fs (sf ++ chars "/kaldi_labels"),
          [Ev.logE (LogEv.creatingMsg scp)]
            ++ [Ev.mkdirE (sf ++ chars "/kaldi_labels")], 0, false, none, []⟩
        st heq
      refine ⟨?_, ?_⟩
      · constructor
        · intro hm
          rcases List.mem_append.mp hm with h1 | h1
          · exact hth.2.mp h1
          · rcases List.mem_cons.mp h1 with h2 | h2
            · exact absurd h2.symm (hwtxtne _ _)
            · rcases List.mem_singleton.mp h2 with h3
              exact absurd h3.symm (hcreatedne _)
        · intro hgt
          exact List.mem_append.mpr (Or.inl (hth.2.mpr hgt))
      · intro _
        refine ⟨by dsimp only at hcnt ⊢; omega, ?_⟩
        refine List.mem_append.mpr (Or.inr ?_)
        exact List.mem_cons_self _ _
    next st heq =>
      have hth := processList_threshold d (read_kaldi_lab fs d)
        (sf ++ chars "/kaldi_labels") wl.length wl
        ⟨mkdirF fs (sf ++ chars "/kaldi_labels"),
          [Ev.logE (LogEv.creatingMsg scp)]
            ++ [Ev.mkdirE (sf ++ chars "/kaldi_labels")], 0, false, none, []⟩
        rfl hinv0
      rw [heq] at hth
      refine ⟨hth.2, ?_⟩
      intro hcon
      cases hcon

/-- Filesystem growth: every file and every path that exists keeps
existing (nothing in the pipeline deletes). -/
def fsKeeps (a b : FS) : Prop :=
  (∀ p, isFileF a p = true → isFileF b p = true)
    ∧ ∀ p, existsF a p = true → existsF b p = true

theorem fsKeeps_refl (a : FS) : fsKeeps a a :=
  ⟨fun _ h => h, fun _ h => h⟩

theorem fsKeeps_trans {a b c : FS} (h1 : fsKeeps a b) (h2 : fsKeeps b c) :
    fsKeeps a c :=
  ⟨fun p h => h2.1 p (h1.1 p h), fun p h => h2.2 p (h1.2 p h)⟩

theorem fsKeeps_setFile (a : FS) (p : Str) (c : FContent) :
    fsKeeps a (setFile a p c) :=
  ⟨fun _ h => isFileF_setFile_mono p c h, fun _ h => existsF_setFile_mono p c h⟩

theorem fsKeeps_mkdirF (a : FS) (d : Str) : fsKeeps a (mkdirF a d) :=
  ⟨fun _ h => h, fun _ h => existsF_mkdirF_mono d h⟩

theorem labStage_keeps (k : Option Str) (lab : List (Str × Nat)) (lod : Str)
    (n : Nat) (st : ScpSt) (snt : Str) :
    fsKeeps st.fs (labStage k lab lod n st snt).fs := by
  unfold labStage
  cases k with
  | none => exact fsKeeps_refl _
  | some d =>
    dsimp only
    by_cases hmiss : (!(labHas lab snt)) = true
    · rw [if_pos hmiss]
      split
      · exact fsKeeps_refl _
      · exact fsKeeps_refl _
    · rw [if_neg hmiss]
      split
      · exact fsKeeps_setFile _ _ _
      · exact fsKeeps_setFile _ _ _

theorem bodyStage_fs (k : Option Str) (st1 : ScpSt) (w spk snt : Str) :
    (bodyStage k st1 w spk snt).1.fs = st1.fs := by
  unfold bodyStage
  cases read_wav_soundfile st1.fs w with
  | none => rfl
  | some nsamples =>
    dsimp only
    have h2 := warnIfDirMissing_fs st1
      (replaceAll w (chars ".wav") (chars ".wrd")) LogEv.wrdMissingMsg
    cases (readTextF (warnIfDirMissing st1
        (replaceAll w (chars ".wav") (chars ".wrd")) LogEv.wrdMissingMsg).fs
        (replaceAll w (chars ".wav") (chars ".wrd"))).bind timitWrdSyms with
    | none => exact h2
    | some wrdSyms =>
      dsimp only
      have h3 := warnIfDirMissing_fs (warnIfDirMissing st1
        (replaceAll w (chars ".wav") (chars ".wrd")) LogEv.wrdMissingMsg)
        (replaceAll w (chars ".wav") (chars ".phn")) LogEv.phnMissingMsg
      have h32 : (warnIfDirMissing (warnIfDirMissing st1
          (replaceAll w (chars ".wav") (chars ".wrd")) LogEv.wrdMissingMsg)
          (replaceAll w (chars ".wav") (chars ".phn"))
          LogEv.phnMissingMsg).fs = st1.fs := by
        rw [h3, h2]
      cases (readTextF (warnIfDirMissing (warnIfDirMissing st1
          (replaceAll w (chars ".wav") (chars ".wrd")) LogEv.wrdMissingMsg)
          (replaceAll w (chars ".wav") (chars ".phn")) LogEv.phnMissingMsg).fs
          (replaceAll w (chars ".wav") (chars ".phn"))).bind timitPhnSyms with
      | none => exact h32
      | some phnSyms =>
        dsimp only
        cases k with
        | none => exact h32
        | some d =>
          cases (warnIfDirMissing (warnIfDirMissing st1
              (replaceAll w (chars ".wav") (chars ".wrd")) LogEv.wrdMissingMsg)
              (replaceAll w (chars ".wav") (chars ".phn"))
              LogEv.phnMissingMsg).sntLabPath with
          | none => exact h32
          | some p => exact h32

theorem processWav_keeps (k : Option Str) (lab : List (Str × Nat)) (lod : Str)
    (n : Nat) (st : ScpSt) (w : Str) :
    fsKeeps st.fs (processWav k lab lod n st w).1.fs := by
  unfold processWav
  cases timitIds w with
  | none => exact fsKeeps_refl _
  | some pr =>
    obtain ⟨spk, snt⟩ := pr
    dsimp only
    split
    · exact labStage_keeps k lab lod n st snt
    · rw [bodyStage_fs]
      exact labStage_keeps k lab lod n st snt

theorem processList_keeps (k : Option Str) (lab : List (Str × Nat)) (lod : Str)
    (n : Nat) :
    ∀ (ws : List Str) (st : ScpSt),
      fsKeeps st.fs (processList k lab lod n ws st).1.fs := by
  intro ws
  induction ws with
  | nil => intro st; exact fsKeeps_refl _
  | cons w rest ih =>
    intro st
    unfold processList
    cases hpw : processWav k lab lod n st w with
    | mk st' okf =>
      have hk : fsKeeps st.fs st'.fs := by
        have := processWav_keeps k lab lod n st w
        rw [hpw] at this
        exact this
      cases okf with
      | true => exact fsKeeps_trans hk (ih st')
      | false => exact hk

theorem timit_create_scp_keeps (fs : FS) (sf : Str) (wl : List Str) (scp : Str)
    (k : Option Str) : fsKeeps fs (timit_create_scp fs sf wl scp k).1.fs := by
  unfold timit_create_scp
  dsimp only
  have hstart : ∀ (lb : List (Str × Nat)) (st0fs : FS), fsKeeps fs st0fs →
      ∀ (st : ScpSt) (okf : Bool) (tr : List Ev),
      processList k lb (sf ++ chars "/kaldi_labels") wl.length wl
        ⟨st0fs, tr, 0, false, none, []⟩ = (st, okf) →
      fsKeeps fs st.fs := by
    intro lb st0fs h0 st okf tr heq
    have hthis := processList_keeps k lb (sf ++ chars "/kaldi_labels")
      wl.length wl ⟨st0fs, tr, 0, false, none, []⟩
    rw [heq] at hthis
    exact fsKeeps_trans h0 hthis
  cases k with
  | none =>
    dsimp only
    split
    next st heq =>
      exact fsKeeps_trans (hstart _ fs (fsKeeps_refl fs) st true _ heq)
        (fsKeeps_setFile _ _ _)
    next st heq =>
      exact hstart _ fs (fsKeeps_refl fs) st false _ heq
  | some d =>
    dsimp only
    by_cases hex : existsF fs (sf ++ chars "/kaldi_labels") = true
    · rw [if_pos hex]
      dsimp only
      split
      next st heq =>
        exact fsKeeps_trans (hstart _ fs (fsKeeps_refl fs) st true _ heq)
          (fsKeeps_setFile _ _ _)
      next st heq =>
        exact hstart _ fs (fsKeeps_refl fs) st false _ heq
    · rw [if_neg hex]
      dsimp only
      split
      next st heq =>
        exact fsKeeps_trans (hstart _ _ (fsKeeps_mkdirF _ _) st true _ heq)
          (fsKeeps_setFile _ _ _)
      next st heq =>
        exact hstart _ _ (fsKeeps_mkdirF _ _) st false _ heq

theorem seqIf_ok_split {b : Build} {f : Build → Build}
    (h : (seqIf b f).ok = true) : b.ok = true ∧ seqIf b f = f b := by
  unfold seqIf at h ⊢
  by_cases hb : b.ok = true
  · rw [if_pos hb] at h ⊢
    exact ⟨hb, rfl⟩
  · rw [if_neg hb] at h
    exact absurd h hb

theorem timit_create_scp_ok_isFile (fs : FS) (sf : Str) (wl : List Str)
    (scp : Str) (k : Option Str)
    (h : (timit_create_scp fs sf wl scp k).1.ok = true) :
    isFileF (timit_create_scp fs sf wl scp k).1.fs scp = true := by
  revert h
  unfold timit_create_scp
  dsimp only
  split
  next st heq =>
    intro _
    exact isFileF_setFile_self _ _ _
  next st heq =>
    intro h
    cases h

theorem runTimitSplit_keeps (c : TimitConf) (ma mo : List Str) (k : Option Str)
    (s : Str) (b : Build) : fsKeeps b.fs (runTimitSplit c ma mo k s b).fs := by
  unfold runTimitSplit
  dsimp only
  exact timit_create_scp_keeps _ _ _ _ _

theorem runTimitSplit_ok_isFile (c : TimitConf) (ma mo : List Str)
    (k : Option Str) (s : Str) (b : Build)
    (h : (runTimitSplit c ma mo k s b).ok = true) :
    isFileF (runTimitSplit c ma mo k s b).fs (timitScpPath c s) = true := by
  unfold runTimitSplit at h ⊢
  dsimp only at h ⊢
  exact timit_create_scp_ok_isFile _ _ _ _ _ h

theorem timitSplitStage_keeps (c : TimitConf) (s : Str) (ma mo : List Str)
    (k : Option Str) (b : Build) :
    fsKeeps b.fs (timitSplitStage c s ma mo k b).fs := by
  unfold timitSplitStage
  split
  · unfold seqIf
    split
    · exact runTimitSplit_keeps _ _ _ _ _ _
    · exact fsKeeps_refl _
  · exact fsKeeps_refl _

theorem timitSplitStage_ok (c : TimitConf) (s : Str) (ma mo : List Str)
    (k : Option Str) (b : Build)
    (h : (timitSplitStage c s ma mo k b).ok = true) : b.ok = true := by
  unfold timitSplitStage at h
  split at h
  · exact (seqIf_ok_split h).1
  · exact h

theorem timitSplitStage_ok_isFile (c : TimitConf) (s : Str) (ma mo : List Str)
    (k : Option Str) (b : Build) (hc : c.splits.contains s = true)
    (h : (timitSplitStage c s ma mo k b).ok = true) :
    isFileF (timitSplitStage c s ma mo k b).fs (timitScpPath c s) = true := by
  unfold timitSplitStage at h ⊢
  rw [if_pos hc] at h ⊢
  obtain ⟨hb, heq⟩ := seqIf_ok_split h
  rw [heq] at h ⊢
  exact runTimitSplit_ok_isFile _ _ _ _ _ _ h

theorem timitBody_keeps (c : TimitConf) (b1 : Build) :
    fsKeeps b1.fs (timitBody c b1).fs := by
  unfold timitBody
  exact fsKeeps_trans (fsKeeps_trans (timitSplitStage_keeps _ _ _ _ _ _)
    (timitSplitStage_keeps _ _ _ _ _ _)) (timitSplitStage_keeps _ _ _ _ _ _)

theorem timitBody_ok_files (c : TimitConf) (b1 : Build)
    (htr : c.splits.contains (chars "train") = true)
    (hdev : c.splits.contains (chars "dev") = true)
    (hte : c.splits.contains (chars "test") = true)
    (h : (timitBody c b1).ok = true) :
    isFileF (timitBody c b1).fs (timitScpPath c (chars "train")) = true
    ∧ isFileF (timitBody c b1).fs (timitScpPath c (chars "dev")) = true
    ∧ isFileF (timitBody c b1).fs (timitScpPath c (chars "test")) = true := by
  unfold timitBody at h ⊢
  have hokDev := timitSplitStage_ok _ _ _ _ _ _ h
  have hokTr := timitSplitStage_ok _ _ _ _ _ _ hokDev
  refine ⟨?_, ?_, ?_⟩
  · exact (timitSplitStage_keeps _ _ _ _ _ _).1 _
      ((timitSplitStage_keeps _ _ _ _ _ _).1 _
        (timitSplitStage_ok_isFile _ _ _ _ _ _ htr hokTr))
  · exact (timitSplitStage_keeps _ _ _ _ _ _).1 _
      (timitSplitStage_ok_isFile _ _ _ _ _ _ hdev hokDev)
  · exact timitSplitStage_ok_isFile _ _ _ _ _ _ hte h

theorem timit_skip_true_of (fs : FS) (c : TimitConf)
    (h1 : isFileF fs (timitScpPath c (chars "train")) = true)
    (h2 : isFileF fs (timitScpPath c (chars "dev")) = true)
    (h3 : isFileF fs (timitScpPath c (chars "test")) = true)
    (h4 : fileAt fs (timitOptPath c) = some (FContent.pkl (PklVal.tconf c))) :
    timit_skip fs c = true := by
  unfold timit_skip
  have h5 : isFileF fs (timitOptPath c) = true := isFileF_of_fileAt h4
  rw [h1, h2, h3, h5]
  simp only [Bool.and_self, if_true]
  unfold load_pkl
  rw [h4]
  simp

theorem timit_prepare_skip_branch (fs : FS) (c : TimitConf)
    (hex : existsF fs c.save_folder = true)
    (hskip : timit_skip fs c = true) :
    timit_prepare fs c
      = ⟨fs, [Ev.logE (LogEv.createdMsg (timitScpPath c (chars "train"))),
              Ev.logE (LogEv.createdMsg (timitScpPath c (chars "dev"))),
              Ev.logE (LogEv.createdMsg (timitScpPath c (chars "test")))],
         true⟩ := by
  unfold timit_prepare
  dsimp only
  rw [if_pos hex]
  rw [if_pos hskip]
  rfl

theorem timit_prepare_facts (fs : FS) (c : TimitConf)
    (htr : c.splits.contains (chars "train") = true)
    (hdev : c.splits.contains (chars "dev") = true)
    (hte : c.splits.contains (chars "test") = true)
    (hok : (timit_prepare fs c).ok = true) :
    existsF (timit_prepare fs c).fs c.save_folder = true
    ∧ timit_skip (timit_prepare fs c).fs c = true := by
  revert hok
  unfold timit_prepare
  dsimp only
  by_cases hex : existsF fs c.save_folder = true
  · rw [if_pos hex]
    dsimp only
    by_cases hskip : timit_skip fs c = true
    · rw [if_pos hskip]
      intro _
      exact ⟨hex, hskip⟩
    · rw [if_neg hskip]
      intro hok
      obtain ⟨hbody, heq⟩ := seqIf_ok_split hok
      rw [heq]
      dsimp only
      obtain ⟨hf1, hf2, hf3⟩ := timitBody_ok_files c _ htr hdev hte hbody
      refine ⟨?_, ?_⟩
      · exact existsF_setFile_mono _ _
          ((timitBody_keeps c _).2 _ hex)
      · refine timit_skip_true_of _ c ?_ ?_ ?_ ?_
        · exact isFileF_setFile_mono _ _ hf1
        · exact isFileF_setFile_mono _ _ hf2
        · exact isFileF_setFile_mono _ _ hf3
        · exact fileAt_setFile_self _ _ _
  · rw [if_neg hex]
    dsimp only
    by_cases hskip : timit_skip (mkdirF fs c.save_folder) c = true
    · rw [if_pos hskip]
      intro _
      exact ⟨existsF_mkdirF_self fs c.save_folder, hskip⟩
    · rw [if_neg hskip]
      intro hok
      obtain ⟨hbody, heq⟩ := seqIf_ok_split hok
      rw [heq]
      dsimp only
      obtain ⟨hf1, hf2, hf3⟩ := timitBody_ok_files c _ htr hdev hte hbody
      refine ⟨?_, ?_⟩
      · exact existsF_setFile_mono _ _
          ((timitBody_keeps c _).2 _ (existsF_mkdirF_self fs c.save_folder))
      · refine timit_skip_true_of _ c ?_ ?_ ?_ ?_
        · exact isFileF_setFile_mono _ _ hf1
        · exact isFileF_setFile_mono _ _ hf2
        · exact isFileF_setFile_mono _ _ hf3
        · exact fileAt_setFile_self _ _ _

theorem labStage_trace (k : Option Str) (lab : List (Str × Nat)) (lod : Str)
    (n : Nat) (st : ScpSt) (snt : Str) :
    ∃ tail, (labStage k lab lod n st snt).trace = st.trace ++ tail
      ∧ ∀ e ∈ tail, (∃ m, e = Ev.logE m)
          ∨ ∃ v, e = Ev.wpkl (lod ++ chars "/" ++ snt ++ chars ".pkl") v := by
  unfold labStage
  cases k with
  | none =>
    refine ⟨[], by simp, ?_⟩
    intro e he
    cases he
  | some d =>
    dsimp only
    by_cases hmiss : (!(labHas lab snt)) = true
    · rw [if_pos hmiss]
      dsimp only
      split
      · refine ⟨[Ev.logE (LogEv.noLabMsg snt)] ++ [Ev.logE LogEv.thresholdMsg],
          by simp, ?_⟩
        intro e he
        rcases List.mem_append.mp he with h1 | h1
        · rcases List.mem_singleton.mp h1 with rfl
          exact Or.inl ⟨_, rfl⟩
        · rcases List.mem_singleton.mp h1 with rfl
          exact Or.inl ⟨_, rfl⟩
      · refine ⟨[Ev.logE (LogEv.noLabMsg snt)], rfl, ?_⟩
        intro e he
        rcases List.mem_singleton.mp he with rfl
        exact Or.inl ⟨_, rfl⟩
    · rw [if_neg hmiss]
      dsimp only
      split
      · refine ⟨[Ev.wpkl (lod ++ chars "/" ++ snt ++ chars ".pkl")
            (PklVal.blob ((labGet lab snt).getD 0))]
            ++ [Ev.logE LogEv.thresholdMsg], by simp, ?_⟩
        intro e he
        rcases List.mem_append.mp he with h1 | h1
        · rcases List.mem_singleton.mp h1 with rfl
          exact Or.inr ⟨_, rfl⟩
        · rcases List.mem_singleton.mp h1 with rfl
          exact Or.inl ⟨_, rfl⟩
      · refine ⟨[Ev.wpkl (lod ++ chars "/" ++ snt ++ chars ".pkl")
            (PklVal.blob ((labGet lab snt).getD 0))], rfl, ?_⟩
        intro e he
        rcases List.mem_singleton.mp he with rfl
        exact Or.inr ⟨_, rfl⟩

theorem processWav_trace (k : Option Str) (lab : List (Str × Nat)) (lod : Str)
    (n : Nat) (st : ScpSt) (w : Str) :
    ∃ tail, (processWav k lab lod n st w).1.trace = st.trace ++ tail
      ∧ ∀ e ∈ tail, (∃ m, e = Ev.logE m)
          ∨ ∃ id v, e = Ev.wpkl (lod ++ chars "/" ++ id ++ chars ".pkl") v := by
  unfold processWav
  cases timitIds w with
  | none =>
    refine ⟨[], by simp, ?_⟩
    intro e he
    cases he
  | some pr =>
    obtain ⟨spk, snt⟩ := pr
    dsimp only
    obtain ⟨t1, ht1, ht1all⟩ := labStage_trace k lab lod n st snt
    split
    · refine ⟨t1, ht1, ?_⟩
      intro e he
      rcases ht1all e he with h1 | ⟨v, rfl⟩
      · exact Or.inl h1
      · exact Or.inr ⟨snt, v, rfl⟩
    · obtain ⟨_, _, t2, ht2, ht2all⟩ :=
        bodyStage_inv k (labStage k lab lod n st snt) w spk snt
      refine ⟨t1 ++ t2, by rw [ht2, ht1, List.append_assoc], ?_⟩
      intro e he
      rcases List.mem_append.mp he with h1 | h1
      · rcases ht1all e h1 with h2 | ⟨v, rfl⟩
        · exact Or.inl h2
        · exact Or.inr ⟨snt, v, rfl⟩
      · rcases ht2all e h1 with ⟨m, rfl, _⟩
        exact Or.inl ⟨m, rfl⟩

theorem processList_trace (k : Option Str) (lab : List (Str × Nat)) (lod : Str)
    (n : Nat) :
    ∀ (ws : List Str) (st : ScpSt),
      ∃ tail, (processList k lab lod n ws st).1.trace = st.trace ++ tail
        ∧ ∀ e ∈ tail, (∃ m, e = Ev.logE m)
            ∨ ∃ id v, e = Ev.wpkl (lod ++ chars "/" ++ id ++ chars ".pkl") v := by
  intro ws
  induction ws with
  | nil =>
    intro st
    refine ⟨[], by simp [processList], ?_⟩
    intro e he
    cases he
  | cons w rest ih =>
    intro st
    unfold processList
    cases hpw : processWav k lab lod n st w with
    | mk st' okf =>
      obtain ⟨t1, ht1, ht1all⟩ : ∃ tail, st'.trace = st.trace ++ tail
          ∧ ∀ e ∈ tail, (∃ m, e = Ev.logE m)
              ∨ ∃ id v, e = Ev.wpkl (lod ++ chars "/" ++ id ++ chars ".pkl") v := by
        have h := processWav_trace k lab lod n st w
        rw [hpw] at h
        exact h
      cases okf with
      | true =>
        obtain ⟨t2, ht2, ht2all⟩ := ih st'
        refine ⟨t1 ++ t2, by rw [ht2, ht1, List.append_assoc], ?_⟩
        intro e he
        rcases List.mem_append.mp he with h1 | h1
        · exact ht1all e h1
        · exact ht2all e h1
      | false =>
        exact ⟨t1, ht1, ht1all⟩

/-- Events a TIMIT `create_scp` call can emit: log messages, the label
directory creation, label-blob pickle writes under
`save_folder/kaldi_labels/`, and the manifest write at its scp path. -/
def scpEv (sf scp : Str) (e : Ev) : Prop :=
  (∃ m, e = Ev.logE m)
    ∨ e = Ev.mkdirE (sf ++ chars "/kaldi_labels")
    ∨ (∃ id v, e = Ev.wpkl ((sf ++ chars "/kaldi_labels") ++ chars "/" ++ id
        ++ chars ".pkl") v)
    ∨ ∃ ls, e = Ev.wtxt scp ls

theorem timit_create_scp_trace (fs : FS) (sf : Str) (wl : List Str) (scp : Str)
    (k : Option Str) :
    ∀ e ∈ (timit_create_scp fs sf wl scp k).1.trace, scpEv sf scp e := by
  unfold timit_create_scp
  dsimp only
  have hloop : ∀ (lb : List (Str × Nat)) (st0fs : FS) (tr : List Ev),
      (∀ e ∈ tr, scpEv sf scp e) →
      ∀ (st : ScpSt) (okf : Bool),
      processList k lb (sf ++ chars "/kaldi_labels") wl.length wl
        ⟨st0fs, tr, 0, false, none, []⟩ = (st, okf) →
      ∀ e ∈ st.trace, scpEv sf scp e := by
    intro lb st0fs tr htr st okf heq e he
    obtain ⟨tail, hta, htall⟩ : ∃ tail, st.trace = tr ++ tail
        ∧ ∀ e ∈ tail, (∃ m, e = Ev.logE m)
            ∨ ∃ id v, e = Ev.wpkl ((sf ++ chars "/kaldi_labels") ++ chars "/"
              ++ id ++ chars ".pkl") v := by
      have h := processList_trace k lb (sf ++ chars "/kaldi_labels")
        wl.length wl ⟨st0fs, tr, 0, false, none, []⟩
      rw [heq] at h
      exact h
    rw [hta] at he
    rcases List.mem_append.mp he with h1 | h1
    · exact htr e h1
    · rcases htall e h1 with h2 | ⟨id, v, rfl⟩
      · exact Or.inl h2
      · exact Or.inr (Or.inr (Or.inl ⟨id, v, rfl⟩))
  have htr0 : ∀ e ∈ [Ev.logE (LogEv.creatingMsg scp)], scpEv sf scp e := by
    intro e he
    rcases List.mem_singleton.mp he with rfl
    exact Or.inl ⟨_, rfl⟩
  have htr0m : ∀ e ∈ [Ev.logE (LogEv.creatingMsg scp)]
      ++ [Ev.mkdirE (sf ++ chars "/kaldi_labels")], scpEv sf scp e := by
    intro e he
    rcases List.mem_append.mp he with h1 | h1
    · exact htr0 e h1
    · rcases List.mem_singleton.mp h1 with rfl
      exact Or.inr (Or.inl rfl)
  have hfin : ∀ (st : ScpSt), (∀ e ∈ st.trace, scpEv sf scp e) →
      ∀ e ∈ st.trace ++ [Ev.wtxt scp (st.recs.map renderT),
        Ev.logE (LogEv.createdMsg scp)], scpEv sf scp e := by
    intro st hst e he
    rcases List.mem_append.mp he with h1 | h1
    · exact hst e h1
    · rcases List.mem_cons.mp h1 with rfl | h2
      · exact Or.inr (Or.inr (Or.inr ⟨_, rfl⟩))
      · rcases List.mem_singleton.mp h2 with rfl
        exact Or.inl ⟨_, rfl⟩
  cases k with
  | none =>
    dsimp only
    split
    next st heq => exact hfin st (hloop _ _ _ htr0 st true heq)
    next st heq => exact hloop _ _ _ htr0 st false heq
  | some d =>
    dsimp only
    by_cases hex : existsF fs (sf ++ chars "/kaldi_labels") = true
    · rw [if_pos hex]
      dsimp only
      split
      next st heq => exact hfin st (hloop _ _ _ htr0 st true heq)
      next st heq => exact hloop _ _ _ htr0 st false heq
    · rw [if_neg hex]
      dsimp only
      split
      next st heq => exact hfin st (hloop _ _ _ htr0m st true heq)
      next st heq => exact hloop _ _ _ htr0m st false heq

theorem timit_create_scp_ok_wtxt (fs : FS) (sf : Str) (wl : List Str)
    (scp : Str) (k : Option Str)
    (h : (timit_create_scp fs sf wl scp k).1.ok = true) :
    (timit_create_scp fs sf wl scp k).1.trace.any (isWtxtAt scp) = true := by
  revert h
  unfold timit_create_scp
  dsimp only
  split
  next st heq =>
    intro _
    refine List.any_eq_true.mpr ⟨Ev.wtxt scp (st.recs.map renderT), ?_, ?_⟩
    · exact List.mem_append.mpr (Or.inr (List.mem_cons_self _ _))
    · simp [isWtxtAt]
  next st heq =>
    intro h
    cases h

theorem labPath_ne_opt (sf id : Str) :
    (sf ++ chars "/kaldi_labels") ++ chars "/" ++ id ++ chars ".pkl"
      ≠ sf ++ chars "/opt_timit_prepare.pkl" := by
  intro h
  simp only [List.append_assoc] at h
  have h2 := List.append_cancel_left h
  have h4 : ('/' : Char) :: ('k' : Char)
      :: (chars "aldi_labels" ++ (chars "/" ++ (id ++ chars ".pkl")))
      = ('/' : Char) :: ('o' : Char) :: chars "pt_timit_prepare.pkl" := h2
  have h5 : ('k' : Char) = 'o' :=
    ((List.cons.injEq _ _ _ _).mp ((List.cons.injEq _ _ _ _).mp h4).2).1
  cases h5

theorem scpEv_no_opt {sf scp opt : Str} {e : Ev}
    (hne : ∀ id, (sf ++ chars "/kaldi_labels") ++ chars "/" ++ id
      ++ chars ".pkl" ≠ opt)
    (he : scpEv sf scp e) : isWpklAt opt e = false := by
  rcases he with ⟨m, rfl⟩ | rfl | ⟨id, v, rfl⟩ | ⟨ls, rfl⟩
  · rfl
  · rfl
  · simp only [isWpklAt, beq_eq_false_iff_ne, ne_eq]
    exact hne id
  · rfl

theorem runTimitSplit_trace_no_opt (c : TimitConf) (ma mo : List Str)
    (k : Option Str) (s : Str) (b : Build)
    (hb : ∀ e ∈ b.trace, isWpklAt (timitOptPath c) e = false) :
    ∀ e ∈ (runTimitSplit c ma mo k s b).trace,
      isWpklAt (timitOptPath c) e = false := by
  unfold runTimitSplit
  dsimp only
  intro e he
  rcases List.mem_append.mp he with h1 | h1
  · exact hb e h1
  · refine scpEv_no_opt ?_ (timit_create_scp_trace _ _ _ _ _ e h1)
    intro id
    exact labPath_ne_opt c.save_folder id

theorem timitSplitStage_trace_no_opt (c : TimitConf) (s : Str)
    (ma mo : List Str) (k : Option Str) (b : Build)
    (hb : ∀ e ∈ b.trace, isWpklAt (timitOptPath c) e = false) :
    ∀ e ∈ (timitSplitStage c s ma mo k b).trace,
      isWpklAt (timitOptPath c) e = false := by
  unfold timitSplitStage
  split
  · unfold seqIf
    split
    · exact runTimitSplit_trace_no_opt c ma mo k s b hb
    · exact hb
  · exact hb

theorem timitBody_trace_no_opt (c : TimitConf) (b1 : Build)
    (hb : ∀ e ∈ b1.trace, isWpklAt (timitOptPath c) e = false) :
    ∀ e ∈ (timitBody c b1).trace, isWpklAt (timitOptPath c) e = false := by
  unfold timitBody
  exact timitSplitStage_trace_no_opt _ _ _ _ _ _
    (timitSplitStage_trace_no_opt _ _ _ _ _ _
      (timitSplitStage_trace_no_opt _ _ _ _ _ _ hb))

theorem timitSplitStage_any_mono (c : TimitConf) (s : Str) (ma mo : List Str)
    (k : Option Str) (b : Build) (q : Ev → Bool)
    (h : b.trace.any q = true) :
    (timitSplitStage c s ma mo k b).trace.any q = true := by
  unfold timitSplitStage
  split
  · unfold seqIf
    split
    · unfold runTimitSplit
      dsimp only
      rcases List.any_eq_true.mp h with ⟨e, he, hq⟩
      exact List.any_eq_true.mpr ⟨e, List.mem_append.mpr (Or.inl he), hq⟩
    · exact h
  · exact h

theorem runTimitSplit_ok_wtxt (c : TimitConf) (ma mo : List Str)
    (k : Option Str) (s : Str) (b : Build)
    (h : (runTimitSplit c ma mo k s b).ok = true) :
    (runTimitSplit c ma mo k s b).trace.any
      (isWtxtAt (timitScpPath c s)) = true := by
  unfold runTimitSplit at h ⊢
  dsimp only at h ⊢
  rcases List.any_eq_true.mp (timit_create_scp_ok_wtxt _ _ _ _ _ h)
    with ⟨e, he, hq⟩
  exact List.any_eq_true.mpr ⟨e, List.mem_append.mpr (Or.inr he), hq⟩

theorem timitSplitStage_ok_wtxt (c : TimitConf) (s : Str) (ma mo : List Str)
    (k : Option Str) (b : Build) (hc : c.splits.contains s = true)
    (h : (timitSplitStage c s ma mo k b).ok = true) :
    (timitSplitStage c s ma mo k b).trace.any
      (isWtxtAt (timitScpPath c s)) = true := by
  unfold timitSplitStage at h ⊢
  rw [if_pos hc] at h ⊢
  obtain ⟨hb, heq⟩ := seqIf_ok_split h
  rw [heq] at h ⊢
  exact runTimitSplit_ok_wtxt _ _ _ _ _ _ h

theorem timitBody_ok_wtxts (c : TimitConf) (b1 : Build)
    (h : (timitBody c b1).ok = true) :
    (c.splits.contains (chars "train") = true →
      (timitBody c b1).trace.any
        (isWtxtAt (timitScpPath c (chars "train"))) = true)
    ∧ (c.splits.contains (chars "dev") = true →
      (timitBody c b1).trace.any
        (isWtxtAt (timitScpPath c (chars "dev"))) = true)
    ∧ (c.splits.contains (chars "test") = true →
      (timitBody c b1).trace.any
        (isWtxtAt (timitScpPath c (chars "test"))) = true) := by
  unfold timitBody at h ⊢
  have hokDev := timitSplitStage_ok _ _ _ _ _ _ h
  have hokTr := timitSplitStage_ok _ _ _ _ _ _ hokDev
  refine ⟨?_, ?_, ?_⟩
  · intro hc
    exact timitSplitStage_any_mono _ _ _ _ _ _ _
      (timitSplitStage_any_mono _ _ _ _ _ _ _
        (timitSplitStage_ok_wtxt _ _ _ _ _ _ hc hokTr))
  · intro hc
    exact timitSplitStage_any_mono _ _ _ _ _ _ _
      (timitSplitStage_ok_wtxt _ _ _ _ _ _ hc hokDev)
  · intro hc
    exact timitSplitStage_ok_wtxt _ _ _ _ _ _ hc h

theorem any_take_false_of_all {l : List Ev} {p : Ev → Bool}
    (h : ∀ e ∈ l, p e = false) (n : Nat) : (l.take n).any p = false := by
  by_contra hcon
  rw [Bool.not_eq_false] at hcon
  rcases List.any_eq_true.mp hcon with ⟨e, he, hp⟩
  rw [h e (List.mem_of_mem_take he)] at hp
  cases hp

theorem any_take_append_last {pre : List Ev} {x : Ev} {p q : Ev → Bool}
    {n : Nat} (hpre : ∀ e ∈ pre, p e = false) (hq : pre.any q = true)
    (h : ((pre ++ [x]).take n).any p = true) :
    ((pre ++ [x]).take n).any q = true := by
  have hn : pre.length < n := by
    by_contra hcon
    push_neg at hcon
    have htake : (pre ++ [x]).take n = pre.take n := by
      rw [List.take_append_eq_append_take]
      have h0 : n - pre.length = 0 := by omega
      rw [h0]
      simp
    rw [htake, any_take_false_of_all hpre n] at h
    cases h
  have htake : (pre ++ [x]).take n = pre ++ [x] := by
    apply List.take_of_length_le
    simp only [List.length_append, List.length_cons, List.length_nil]
    omega
  rw [htake]
  rcases List.any_eq_true.mp hq with ⟨e, he, hqe⟩
  exact List.any_eq_true.mpr ⟨e, List.mem_append.mpr (Or.inl he), hqe⟩

theorem mkdirB0_trace_no_wp (fs : FS) (d p : Str) :
    ∀ e ∈ (if existsF fs d then (⟨fs, [], true⟩ : Build)
        else ⟨mkdirF fs d, [Ev.mkdirE d], true⟩).trace,
      isWpklAt p e = false := by
  split
  · intro e he
    cases he
  · intro e he
    obtain rfl := List.mem_singleton.mp he
    rfl

theorem check_timit_folders_no_wp (fs : FS) (c : TimitConf) (p : Str) :
    ∀ e ∈ check_timit_folders fs c, isWpklAt p e = false := by
  intro e he
  unfold check_timit_folders at he
  rcases List.mem_append.mp he with h1 | h1 <;>
  · revert h1
    split
    · intro h1
      cases h1
    · intro h1
      obtain rfl := List.mem_singleton.mp h1
      rfl

theorem timit_after_b0 (c : TimitConf) (b0 : Build) (n : Nat) (s : Str)
    (hb0 : ∀ e ∈ b0.trace, isWpklAt (timitOptPath c) e = false)
    (hs : c.splits.contains s = true)
    (hm : s = chars "train" ∨ s = chars "dev" ∨ s = chars "test")
    (hn : (((if timit_skip b0.fs c then
        { b0 with trace := b0.trace
          ++ [Ev.logE (LogEv.createdMsg (timitScpPath c (chars "train"))),
              Ev.logE (LogEv.createdMsg (timitScpPath c (chars "dev"))),
              Ev.logE (LogEv.createdMsg (timitScpPath c (chars "test")))] }
      else
        seqIf (timitBody c
            { b0 with trace := b0.trace ++ check_timit_folders b0.fs c })
          (fun b =>
            ⟨setFile b.fs (timitOptPath c) (FContent.pkl (PklVal.tconf c)),
             b.trace ++ [Ev.wpkl (timitOptPath c) (PklVal.tconf c)],
             true⟩)).trace.take n).any (isWpklAt (timitOptPath c))) = true) :
    (((if timit_skip b0.fs c then
        { b0 with trace := b0.trace
          ++ [Ev.logE (LogEv.createdMsg (timitScpPath c (chars "train"))),
              Ev.logE (LogEv.createdMsg (timitScpPath c (chars "dev"))),
              Ev.logE (LogEv.createdMsg (timitScpPath c (chars "test")))] }
      else
        seqIf (timitBody c
            { b0 with trace := b0.trace ++ check_timit_folders b0.fs c })
          (fun b =>
            ⟨setFile b.fs (timitOptPath c) (FContent.pkl (PklVal.tconf c)),
             b.trace ++ [Ev.wpkl (timitOptPath c) (PklVal.tconf c)],
             true⟩)).trace.take n).any (isWtxtAt (timitScpPath c s))) = true := by
  have hb1 : ∀ e ∈ (Build.mk b0.fs
        (b0.trace ++ check_timit_folders b0.fs c) b0.ok).trace,
      isWpklAt (timitOptPath c) e = false := by
    intro e he
    rcases List.mem_append.mp he with h1 | h1
    · exact hb0 e h1
    · exact check_timit_folders_no_wp _ c _ e h1
  revert hn
  by_cases hskip : timit_skip b0.fs c = true
  · rw [if_pos hskip]
    dsimp only
    intro hn
    exfalso
    have hall : ∀ e ∈ (b0.trace
        ++ [Ev.logE (LogEv.createdMsg (timitScpPath c (chars "train"))),
            Ev.logE (LogEv.createdMsg (timitScpPath c (chars "dev"))),
            Ev.logE (LogEv.createdMsg (timitScpPath c (chars "test")))]),
        isWpklAt (timitOptPath c) e = false := by
      intro e he
      rcases List.mem_append.mp he with h1 | h1
      · exact hb0 e h1
      · simp only [List.mem_cons, List.not_mem_nil, or_false] at h1
        rcases h1 with rfl | rfl | rfl <;> rfl
    rw [any_take_false_of_all hall n] at hn
    cases hn
  · rw [if_neg hskip]
    unfold seqIf
    by_cases hok : (timitBody c
        { b0 with trace := b0.trace ++ check_timit_folders b0.fs c }).ok = true
    · rw [if_pos hok]
      dsimp only
      intro hn
      have hpre := timitBody_trace_no_opt c _ hb1
      have hco := timitBody_ok_wtxts c _ hok
      have hq : (timitBody c
          { b0 with trace := b0.trace ++ check_timit_folders b0.fs c }).trace.any
          (isWtxtAt (timitScpPath c s)) = true := by
        rcases hm with rfl | rfl | rfl
        · exact hco.1 hs
        · exact hco.2.1 hs
        · exact hco.2.2 hs
      exact any_take_append_last hpre hq hn
    · rw [if_neg hok]
      intro hn
      exfalso
      have hpre := timitBody_trace_no_opt c _ hb1
      rw [any_take_false_of_all hpre n] at hn
      cases hn

theorem timit_fp_after_manifests (fs : FS) (c : TimitConf) (n : Nat) (s : Str)
    (hs : c.splits.contains s = true)
    (hm : s = chars "train" ∨ s = chars "dev" ∨ s = chars "test")
    (hn : ((timit_prepare fs c).trace.take n).any
        (isWpklAt (timitOptPath c)) = true) :
    ((timit_prepare fs c).trace.take n).any
      (isWtxtAt (timitScpPath c s)) = true :=
  timit_after_b0 c
    (if existsF fs c.save_folder then (⟨fs, [], true⟩ : Build)
      else ⟨mkdirF fs c.save_folder, [Ev.mkdirE c.save_folder], true⟩)
    n s (mkdirB0_trace_no_wp fs c.save_folder _) hs hm hn

theorem librispeech_create_scp_no_wp (fs : FS) (c : LibriConf)
    (dict : List (Str × Str)) (wl : List Str) (s : Str) (seln : Nat) (p : Str) :
    ∀ e ∈ (librispeech_create_scp fs c dict wl s seln).1.trace,
      isWpklAt p e = false := by
  simp only [librispeech_create_scp]
  split
  · intro e he
    dsimp only at he
    simp only [List.mem_cons, List.not_mem_nil, or_false,
      List.cons_append, List.nil_append] at he
    rcases he with rfl | rfl | rfl <;> rfl
  · intro e he
    dsimp only at he
    obtain rfl := List.mem_singleton.mp he
    rfl

theorem librispeech_create_scp_ok_wtxt (fs : FS) (c : LibriConf)
    (dict : List (Str × Str)) (wl : List Str) (s : Str) (seln : Nat)
    (h : (librispeech_create_scp fs c dict wl s seln).1.ok = true) :
    (librispeech_create_scp fs c dict wl s seln).1.trace.any
      (isWtxtAt (libriScpPath c s)) = true := by
  revert h
  simp only [librispeech_create_scp]
  split
  · intro _
    dsimp only
    simp [isWtxtAt]
  · intro h
    exact Bool.noConfusion h

theorem libriSplitStep_no_wp (c : LibriConf) (i : Nat) (s : Str) (b : Build)
    (p : Str) (hb : ∀ e ∈ b.trace, isWpklAt p e = false) :
    ∀ e ∈ (libriSplitStep c i s b).trace, isWpklAt p e = false := by
  simp only [libriSplitStep]
  split
  · exact hb
  · split
    · exact hb
    · intro e he
      dsimp only at he
      rcases List.mem_append.mp he with h1 | h1
      · exact hb e h1
      · exact librispeech_create_scp_no_wp _ c _ _ _ _ p e h1

theorem libriSplitStep_any_mono (c : LibriConf) (i : Nat) (s : Str) (b : Build)
    (q : Ev → Bool) (h : b.trace.any q = true) :
    (libriSplitStep c i s b).trace.any q = true := by
  simp only [libriSplitStep]
  split
  · exact h
  · split
    · exact h
    · dsimp only
      rcases List.any_eq_true.mp h with ⟨e, he, hq⟩
      exact List.any_eq_true.mpr ⟨e, List.mem_append.mpr (Or.inl he), hq⟩

theorem libriSplitStep_ok_wtxt (c : LibriConf) (i : Nat) (s : Str) (b : Build)
    (h : (libriSplitStep c i s b).ok = true) :
    (libriSplitStep c i s b).trace.any (isWtxtAt (libriScpPath c s)) = true := by
  revert h
  simp only [libriSplitStep]
  split
  · intro h
    exact Bool.noConfusion h
  · split
    · intro h
      exact Bool.noConfusion h
    · intro h
      dsimp only at h ⊢
      rcases List.any_eq_true.mp (librispeech_create_scp_ok_wtxt _ _ _ _ _ _ h)
        with ⟨e, he, hq⟩
      exact List.any_eq_true.mpr ⟨e, List.mem_append.mpr (Or.inr he), hq⟩

theorem libriFold_stuck (c : LibriConf) (l : List (Nat × Str)) (b : Build)
    (h : b.ok = false) :
    l.foldl (fun b p => if b.ok then libriSplitStep c p.1 p.2 b else b) b
      = b := by
  induction l generalizing b with
  | nil => rfl
  | cons q rest ih =>
    rw [List.foldl_cons]
    have hstep : (if b.ok then libriSplitStep c q.1 q.2 b else b) = b := by
      rw [h]
      simp
    rw [hstep]
    exact ih b h

theorem libriFold_no_wp (c : LibriConf) (l : List (Nat × Str)) (b : Build)
    (p : Str) (hb : ∀ e ∈ b.trace, isWpklAt p e = false) :
    ∀ e ∈ (l.foldl
        (fun b p => if b.ok then libriSplitStep c p.1 p.2 b else b) b).trace,
      isWpklAt p e = false := by
  induction l generalizing b with
  | nil => exact hb
  | cons q rest ih =>
    rw [List.foldl_cons]
    apply ih
    by_cases hk : b.ok = true
    · rw [if_pos hk]
      exact libriSplitStep_no_wp c q.1 q.2 b p hb
    · rw [if_neg hk]
      exact hb

theorem libriFold_any_mono (c : LibriConf) (l : List (Nat × Str)) (b : Build)
    (q : Ev → Bool) (h : b.trace.any q = true) :
    (l.foldl
        (fun b p => if b.ok then libriSplitStep c p.1 p.2 b else b) b).trace.any
      q = true := by
  induction l generalizing b with
  | nil => exact h
  | cons r rest ih =>
    rw [List.foldl_cons]
    apply ih
    by_cases hk : b.ok = true
    · rw [if_pos hk]
      exact libriSplitStep_any_mono c r.1 r.2 b q h
    · rw [if_neg hk]
      exact h

theorem libriFold_ok_wtxt (c : LibriConf) (l : List (Nat × Str)) :
    ∀ (b : Build),
      (l.foldl
        (fun b p => if b.ok then libriSplitStep c p.1 p.2 b else b) b).ok = true →
      ∀ p ∈ l,
        (l.foldl
          (fun b p => if b.ok then libriSplitStep c p.1 p.2 b else b) b).trace.any
          (isWtxtAt (libriScpPath c p.2)) = true := by
  induction l with
  | nil =>
    intro b _ p hp
    cases hp
  | cons q rest ih =>
    intro b h p hp
    rw [List.foldl_cons] at h ⊢
    by_cases hk : b.ok = true
    · rw [if_pos hk] at h ⊢
      rcases List.mem_cons.mp hp with rfl | hp2
      · by_cases hsq : (libriSplitStep c p.1 p.2 b).ok = true
        · exact libriFold_any_mono c rest _ _ (libriSplitStep_ok_wtxt c p.1 p.2 b hsq)
        · rw [libriFold_stuck c rest _ (Bool.eq_false_iff.mpr hsq)] at h
          exact absurd h hsq
      · exact ih _ h p hp2
    · rw [if_neg hk] at h ⊢
      rw [libriFold_stuck c rest b (Bool.eq_false_iff.mpr hk)] at h
      exact absurd h hk

theorem check_librispeech_folders_no_wp (fs : FS) (c : LibriConf) (p : Str) :
    ∀ e ∈ check_librispeech_folders fs c, isWpklAt p e = false := by
  intro e he
  unfold check_librispeech_folders at he
  rcases List.mem_flatten.mp he with ⟨l, hl, hel⟩
  rcases List.mem_map.mp hl with ⟨s, _, rfl⟩
  revert hel
  split
  · intro h1
    cases h1
  · intro h1
    obtain rfl := List.mem_singleton.mp h1
    rfl

theorem libri_after_b0 (c : LibriConf) (b0 : Build) (n : Nat) (s : Str)
    (hb0 : ∀ e ∈ b0.trace, isWpklAt (libriOptPath c) e = false)
    (hs : s ∈ c.splits)
    (hn : (((if librispeech_skip b0.fs c then
        { b0 with trace := b0.trace
          ++ c.splits.map (fun s => Ev.logE (LogEv.createdMsg (libriScpPath c s))) }
      else
        seqIf (c.splits.enum.foldl
            (fun b p => if b.ok then libriSplitStep c p.1 p.2 b else b)
            { b0 with trace := b0.trace ++ check_librispeech_folders b0.fs c })
          (fun b =>
            ⟨setFile b.fs (libriOptPath c) (FContent.pkl (PklVal.lconf c)),
             b.trace ++ [Ev.wpkl (libriOptPath c) (PklVal.lconf c)],
             true⟩)).trace.take n).any (isWpklAt (libriOptPath c))) = true) :
    (((if librispeech_skip b0.fs c then
        { b0 with trace := b0.trace
          ++ c.splits.map (fun s => Ev.logE (LogEv.createdMsg (libriScpPath c s))) }
      else
        seqIf (c.splits.enum.foldl
            (fun b p => if b.ok then libriSplitStep c p.1 p.2 b else b)
            { b0 with trace := b0.trace ++ check_librispeech_folders b0.fs c })
          (fun b =>
            ⟨setFile b.fs (libriOptPath c) (FContent.pkl (PklVal.lconf c)),
             b.trace ++ [Ev.wpkl (libriOptPath c) (PklVal.lconf c)],
             true⟩)).trace.take n).any (isWtxtAt (libriScpPath c s))) = true := by
  have hb1 : ∀ e ∈ (Build.mk b0.fs
        (b0.trace ++ check_librispeech_folders b0.fs c) b0.ok).trace,
      isWpklAt (libriOptPath c) e = false := by
    intro e he
    rcases List.mem_append.mp he with h1 | h1
    · exact hb0 e h1
    · exact check_librispeech_folders_no_wp _ c _ e h1
  revert hn
  by_cases hskip : librispeech_skip b0.fs c = true
  · rw [if_pos hskip]
    dsimp only
    intro hn
    exfalso
    have hall : ∀ e ∈ (b0.trace
        ++ c.splits.map (fun s => Ev.logE (LogEv.createdMsg (libriScpPath c s)))),
        isWpklAt (libriOptPath c) e = false := by
      intro e he
      rcases List.mem_append.mp he with h1 | h1
      · exact hb0 e h1
      · rcases List.mem_map.mp h1 with ⟨t, _, rfl⟩
        rfl
    rw [any_take_false_of_all hall n] at hn
    cases hn
  · rw [if_neg hskip]
    unfold seqIf
    by_cases hok : (c.splits.enum.foldl
        (fun b p => if b.ok then libriSplitStep c p.1 p.2 b else b)
        (Build.mk b0.fs (b0.trace ++ check_librispeech_folders b0.fs c)
          b0.ok)).ok = true
    · rw [if_pos hok]
      dsimp only
      intro hn
      have hpre := libriFold_no_wp c c.splits.enum _ (libriOptPath c) hb1
      have hq : (c.splits.enum.foldl
          (fun b p => if b.ok then libriSplitStep c p.1 p.2 b else b)
          (Build.mk b0.fs (b0.trace ++ check_librispeech_folders b0.fs c)
            b0.ok)).trace.any
          (isWtxtAt (libriScpPath c s)) = true := by
        rw [← List.enum_map_snd c.splits] at hs
        rcases List.mem_map.mp hs with ⟨p, hp, rfl⟩
        exact libriFold_ok_wtxt c c.splits.enum _ hok p hp
      exact any_take_append_last hpre hq hn
    · rw [if_neg hok]
      intro hn
      exfalso
      have hpre := libriFold_no_wp c c.splits.enum _ (libriOptPath c) hb1
      rw [any_take_false_of_all hpre n] at hn
      cases hn

theorem libri_fp_after_manifests (fs : FS) (c : LibriConf) (n : Nat) (s : Str)
    (hs : s ∈ c.splits)
    (hn : ((librispeech_prepare fs c).trace.take n).any
        (isWpklAt (libriOptPath c)) = true) :
    ((librispeech_prepare fs c).trace.take n).any
      (isWtxtAt (libriScpPath c s)) = true :=
  libri_after_b0 c
    (if existsF fs c.save_folder then (⟨fs, [], true⟩ : Build)
      else ⟨mkdirF fs c.save_folder, [Ev.mkdirE c.save_folder], true⟩)
    n s (mkdirB0_trace_no_wp fs c.save_folder _) hs hn

/-- C6: in every run of `timit_prepare` or `librispeech_prepare`, the
fingerprint pickle is never written before the manifests of all requested
splits: any trace prefix (of any length `n`) that already contains the
fingerprint-write event also contains, for every requested split (for
TIMIT, every requested split among train/dev/test — the only ones the
code builds), the write of that split's `.scp` manifest. The fingerprint
write is appended only by the final stage, which runs only when the whole
manifest-building body completed with `ok`. -/
theorem C6_fingerprint_only_after_all_split_manifests :
    (∀ (fs : FS) (c : TimitConf) (n : Nat) (s : Str),
      c.splits.contains s = true →
      (s = chars "train" ∨ s = chars "dev" ∨ s = chars "test") →
      ((timit_prepare fs c).trace.take n).any (isWpklAt (timitOptPath c)) = true →
      ((timit_prepare fs c).trace.take n).any
        (isWtxtAt (timitScpPath c s)) = true)
    ∧ (∀ (fs : FS) (c : LibriConf) (n : Nat) (s : Str),
      s ∈ c.splits →
      ((librispeech_prepare fs c).trace.take n).any
        (isWpklAt (libriOptPath c)) = true →
      ((librispeech_prepare fs c).trace.take n).any
        (isWtxtAt (libriScpPath c s)) = true) :=
  ⟨fun fs c n s hs hm hn => timit_fp_after_manifests fs c n s hs hm hn,
   fun fs c n s hs hn => libri_fp_after_manifests fs c n s hs hn⟩

theorem librispeech_create_scp_keeps (fs : FS) (c : LibriConf)
    (dict : List (Str × Str)) (wl : List Str) (s : Str) (seln : Nat) :
    fsKeeps fs (librispeech_create_scp fs c dict wl s seln).1.fs := by
  simp only [librispeech_create_scp]
  split
  · dsimp only
    exact fsKeeps_setFile _ _ _
  · dsimp only
    exact fsKeeps_refl _

theorem librispeech_create_scp_ok_isFile (fs : FS) (c : LibriConf)
    (dict : List (Str × Str)) (wl : List Str) (s : Str) (seln : Nat)
    (h : (librispeech_create_scp fs c dict wl s seln).1.ok = true) :
    isFileF (librispeech_create_scp fs c dict wl s seln).1.fs
      (libriScpPath c s) = true := by
  revert h
  simp only [librispeech_create_scp]
  split
  · intro _
    exact isFileF_setFile_self _ _ _
  · intro h
    exact Bool.noConfusion h

theorem libriSplitStep_keeps (c : LibriConf) (i : Nat) (s : Str) (b : Build) :
    fsKeeps b.fs (libriSplitStep c i s b).fs := by
  simp only [libriSplitStep]
  split
  · exact fsKeeps_refl _
  · split
    · exact fsKeeps_refl _
    · dsimp only
      exact librispeech_create_scp_keeps _ _ _ _ _ _

theorem libriSplitStep_ok_isFile (c : LibriConf) (i : Nat) (s : Str) (b : Build)
    (h : (libriSplitStep c i s b).ok = true) :
    isFileF (libriSplitStep c i s b).fs (libriScpPath c s) = true := by
  revert h
  simp only [libriSplitStep]
  split
  · intro h
    exact Bool.noConfusion h
  · split
    · intro h
      exact Bool.noConfusion h
    · intro h
      dsimp only at h ⊢
      exact librispeech_create_scp_ok_isFile _ _ _ _ _ _ h

theorem libriFold_keeps (c : LibriConf) (l : List (Nat × Str)) (b : Build) :
    fsKeeps b.fs (l.foldl
      (fun b p => if b.ok then libriSplitStep c p.1 p.2 b else b) b).fs := by
  induction l generalizing b with
  | nil => exact fsKeeps_refl _
  | cons q rest ih =>
    rw [List.foldl_cons]
    by_cases hk : b.ok = true
    · rw [if_pos hk]
      exact fsKeeps_trans (libriSplitStep_keeps c q.1 q.2 b) (ih _)
    · rw [if_neg hk]
      exact ih b

theorem libriFold_ok_files (c : LibriConf) (l : List (Nat × Str)) :
    ∀ (b : Build),
      (l.foldl (fun b p => if b.ok then libriSplitStep c p.1 p.2 b else b) b).ok
        = true →
      ∀ p ∈ l,
        isFileF (l.foldl
          (fun b p => if b.ok then libriSplitStep c p.1 p.2 b else b) b).fs
          (libriScpPath c p.2) = true := by
  induction l with
  | nil =>
    intro b _ p hp
    cases hp
  | cons q rest ih =>
    intro b h p hp
    rw [List.foldl_cons] at h ⊢
    by_cases hk : b.ok = true
    · rw [if_pos hk] at h ⊢
      rcases List.mem_cons.mp hp with rfl | hp2
      · by_cases hsq : (libriSplitStep c p.1 p.2 b).ok = true
        · exact (libriFold_keeps c rest _).1 _
            (libriSplitStep_ok_isFile c p.1 p.2 b hsq)
        · rw [libriFold_stuck c rest _ (Bool.eq_false_iff.mpr hsq)] at h
          exact absurd h hsq
      · exact ih _ h p hp2
    · rw [if_neg hk] at h ⊢
      rw [libriFold_stuck c rest b (Bool.eq_false_iff.mpr hk)] at h
      exact absurd h hk

theorem libriSkipFold_true (fs : FS) (c : LibriConf) :
    ∀ (l : List Str),
      (∀ s ∈ l, isFileF fs (libriScpPath c s) = true) →
      l.foldl (fun sk split =>
        if isFileF fs (libriScpPath c split) then sk else false) true = true := by
  intro l
  induction l with
  | nil =>
    intro _
    rfl
  | cons q rest ih =>
    intro hall
    rw [List.foldl_cons]
    rw [if_pos (hall q (List.mem_cons_self q rest))]
    exact ih (fun s hs => hall s (List.mem_cons_of_mem q hs))

theorem librispeech_skip_true_of (fs : FS) (c : LibriConf)
    (h1 : ∀ s ∈ c.splits, isFileF fs (libriScpPath c s) = true)
    (h4 : fileAt fs (libriOptPath c) = some (FContent.pkl (PklVal.lconf c))) :
    librispeech_skip fs c = true := by
  unfold librispeech_skip
  rw [libriSkipFold_true fs c c.splits h1]
  rw [isFileF_of_fileAt h4]
  simp only [if_true]
  unfold load_pkl
  rw [h4]
  simp

theorem librispeech_prepare_skip_branch (fs : FS) (c : LibriConf)
    (hex : existsF fs c.save_folder = true)
    (hskip : librispeech_skip fs c = true) :
    librispeech_prepare fs c
      = ⟨fs,
         c.splits.map (fun s => Ev.logE (LogEv.createdMsg (libriScpPath c s))),
         true⟩ := by
  unfold librispeech_prepare
  dsimp only
  rw [if_pos hex]
  rw [if_pos hskip]
  rfl

theorem librispeech_prepare_facts (fs : FS) (c : LibriConf)
    (hok : (librispeech_prepare fs c).ok = true) :
    existsF (librispeech_prepare fs c).fs c.save_folder = true
    ∧ librispeech_skip (librispeech_prepare fs c).fs c = true := by
  revert hok
  unfold librispeech_prepare
  dsimp only
  by_cases hex : existsF fs c.save_folder = true
  · rw [if_pos hex]
    dsimp only
    by_cases hskip : librispeech_skip fs c = true
    · rw [if_pos hskip]
      intro _
      exact ⟨hex, hskip⟩
    · rw [if_neg hskip]
      intro hok
      obtain ⟨hbody, heq⟩ := seqIf_ok_split hok
      rw [heq]
      dsimp only
      refine ⟨?_, ?_⟩
      · exact existsF_setFile_mono _ _ ((libriFold_keeps c _ _).2 _ hex)
      · refine librispeech_skip_true_of _ c ?_ (fileAt_setFile_self _ _ _)
        intro s hs
        apply isFileF_setFile_mono
        rw [← List.enum_map_snd c.splits] at hs
        rcases List.mem_map.mp hs with ⟨p, hp, rfl⟩
        exact libriFold_ok_files c c.splits.enum _ hbody p hp
  · rw [if_neg hex]
    dsimp only
    by_cases hskip : librispeech_skip (mkdirF fs c.save_folder) c = true
    · rw [if_pos hskip]
      intro _
      exact ⟨existsF_mkdirF_self fs c.save_folder, hskip⟩
    · rw [if_neg hskip]
      intro hok
      obtain ⟨hbody, heq⟩ := seqIf_ok_split hok
      rw [heq]
      dsimp only
      refine ⟨?_, ?_⟩
      · exact existsF_setFile_mono _ _
          ((libriFold_keeps c _ _).2 _ (existsF_mkdirF_self fs c.save_folder))
      · refine librispeech_skip_true_of _ c ?_ (fileAt_setFile_self _ _ _)
        intro s hs
        apply isFileF_setFile_mono
        rw [← List.enum_map_snd c.splits] at hs
        rcases List.mem_map.mp hs with ⟨p, hp, rfl⟩
        exact libriFold_ok_files c c.splits.enum _ hbody p hp

/-- C5 (amended): running either preparer twice with unchanged corpus
and configuration yields a cache-hit skip and zero filesystem-writing
work on the second run — unconditionally for `librispeech_prepare`
(its skip test checks exactly the requested splits), but for
`timit_prepare` only when the configuration requests all three splits:
its skip test demands `train.scp`, `dev.scp` and `test.scp` regardless
of which splits were requested, so a partial-split run can never hit
the cache (see the counterexample). In each covered case, after a
completed first run the second run takes the skip branch, emits only
log events (zero filesystem-writing work), and leaves every file —
in particular every manifest — byte-for-byte unchanged. -/
theorem C5_second_run_skips_after_full_split_build :
    (∀ (fs : FS) (c : TimitConf),
      c.splits.contains (chars "train") = true →
      c.splits.contains (chars "dev") = true →
      c.splits.contains (chars "test") = true →
      (timit_prepare fs c).ok = true →
      timit_skip (timit_prepare fs c).fs c = true
      ∧ timit_prepare (timit_prepare fs c).fs c
          = ⟨(timit_prepare fs c).fs,
             [Ev.logE (LogEv.createdMsg (timitScpPath c (chars "train"))),
              Ev.logE (LogEv.createdMsg (timitScpPath c (chars "dev"))),
              Ev.logE (LogEv.createdMsg (timitScpPath c (chars "test")))],
             true⟩
      ∧ (timit_prepare (timit_prepare fs c).fs c).trace.filter isWrite = []
      ∧ (timit_prepare (timit_prepare fs c).fs c).fs = (timit_prepare fs c).fs
      ∧ ∀ p, fileAt (timit_prepare (timit_prepare fs c).fs c).fs p
          = fileAt (timit_prepare fs c).fs p)
    ∧ (∀ (fs : FS) (c : LibriConf),
      (librispeech_prepare fs c).ok = true →
      librispeech_skip (librispeech_prepare fs c).fs c = true
      ∧ librispeech_prepare (librispeech_prepare fs c).fs c
          = ⟨(librispeech_prepare fs c).fs,
             c.splits.map
               (fun s => Ev.logE (LogEv.createdMsg (libriScpPath c s))),
             true⟩
      ∧ (librispeech_prepare (librispeech_prepare fs c).fs c).trace.filter
          isWrite = []
      ∧ (librispeech_prepare (librispeech_prepare fs c).fs c).fs
          = (librispeech_prepare fs c).fs
      ∧ ∀ p, fileAt (librispeech_prepare (librispeech_prepare fs c).fs c).fs p
          = fileAt (librispeech_prepare fs c).fs p) := by
  constructor
  · intro fs c htr hdev hte hok
    obtain ⟨hex, hskip⟩ := timit_prepare_facts fs c htr hdev hte hok
    have hrun2 := timit_prepare_skip_branch (timit_prepare fs c).fs c hex hskip
    refine ⟨hskip, hrun2, ?_, ?_, ?_⟩
    · rw [hrun2]
      rfl
    · rw [hrun2]
    · intro p
      rw [hrun2]
  · intro fs c hok
    obtain ⟨hex, hskip⟩ := librispeech_prepare_facts fs c hok
    have hrun2 :=
      librispeech_prepare_skip_branch (librispeech_prepare fs c).fs c hex hskip
    refine ⟨hskip, hrun2, ?_, ?_, ?_⟩
    · rw [hrun2]
      dsimp only
      rw [List.filter_eq_nil_iff]
      intro e he
      rcases List.mem_map.mp he with ⟨t, _, rfl⟩
      simp [isWrite]
    · rw [hrun2]
    · intro p
      rw [hrun2]

/-- C5 witness: concrete second runs. A full-split TIMIT configuration
over an empty corpus, and the LibriSpeech configuration of `fxLibriConf`
over an empty corpus: each first run completes, each second run skips
and writes nothing. -/
theorem C5_second_run_skips_after_full_split_build_witness :
    timit_skip (timit_prepare ⟨[], []⟩ fxAllSplitsConf).fs fxAllSplitsConf
        = true
    ∧ (timit_prepare (timit_prepare ⟨[], []⟩ fxAllSplitsConf).fs
          fxAllSplitsConf).trace.filter isWrite = []
    ∧ librispeech_skip (librispeech_prepare ⟨[], []⟩ fxLibriConf).fs
          fxLibriConf = true
    ∧ (librispeech_prepare (librispeech_prepare ⟨[], []⟩ fxLibriConf).fs
          fxLibriConf).trace.filter isWrite = [] :=
  ⟨(C5_second_run_skips_after_full_split_build.1 ⟨[], []⟩ fxAllSplitsConf
      (by decide) (by decide) (by decide) (by decide)).1,
   (C5_second_run_skips_after_full_split_build.1 ⟨[], []⟩ fxAllSplitsConf
      (by decide) (by decide) (by decide) (by decide)).2.2.1,
   (C5_second_run_skips_after_full_split_build.2 ⟨[], []⟩ fxLibriConf
      (by decide)).1,
   (C5_second_run_skips_after_full_split_build.2 ⟨[], []⟩ fxLibriConf
      (by decide)).2.2.1⟩
